import Mathlib

/-!
# Verification of the Sudoku core (`sudoku/__init__.py`, 2020/05/05 snapshot)

A shallow embedding of the board data model, constraint-propagation engine,
backtracking search, uniqueness checker and puzzle generator of the Sudoku
library, together with proofs and refutations of the specification's claims.

Modelling conventions:
* Python dicts `known : cell → val` and `unknown : cell → set of vals` become
  `Nat → Option Nat` and `Nat → Option (Finset Nat)`; a key being absent is
  `none`.
* Iteration over dict keys is modelled as iteration over `List.range` in
  ascending order (for boards built from `blank`, the insertion order of the
  `unknown` dict is exactly ascending cell order, and deletions preserve it;
  Python set iteration order is unspecified, so ascending order is a
  deterministic refinement).
* Python's `random` (tie-breaking in `solve`, removal order in
  `generate_from`) is replaced by explicit oracle parameters, universally
  quantified in the theorems.
* Out-of-range dict accesses, which raise `KeyError` in Python
  (e.g. `cell2divs[cell]` for `cell ≥ n²`), are totalised; theorems about
  operations on in-range cells are unaffected.
-/

namespace Sudoku

/-! ## Division builder: `board_divs`, `transpose`, `neighbors` -/

/-- The `box` helper from `board_divs`: `i//order * order + j//order`. -/
def boxOf (order i j : Nat) : Nat := i / order * order + j / order

/-- `cell2divs` from `board_divs`: the cell `c` (row `i = c / n`, column
`j = c % n`, `n = order²`) lies in divisions `{i, n + j, 2n + box i j}`. -/
def cell2divs (order c : Nat) : Finset Nat :=
  {c / order ^ 2, order ^ 2 + c % order ^ 2,
   2 * order ^ 2 + boxOf order (c / order ^ 2) (c % order ^ 2)}

/-- `div2cells = transpose(cell2divs)`: the cells (among the `n²` cells of the
board) whose division set contains `d`. -/
def div2cells (order d : Nat) : Finset Nat :=
  (Finset.range ((order ^ 2) ^ 2)).filter (fun c => d ∈ cell2divs order c)

/-- `neighbors(bd, cell0)`: the union of the divisions of `cell0`
(`union(bd.div2cells[div] for div in bd.cell2divs[cell0])`). -/
def neighbors (order c : Nat) : Finset Nat :=
  (cell2divs order c).biUnion (div2cells order)

/-! ## The `board` class -/

/-- The `board` class: `known` maps known cells to values, `unknown` maps
unknown cells to their candidate sets.  The structural graph (`cell2divs`,
`div2cells`) is shared by all boards of the same order, so only the order is
stored. -/
structure Board where
  order : Nat
  known : Nat → Option Nat
  unknown : Nat → Option (Finset Nat)

/-- Side length / number of values, `n = order²`. -/
def Board.n (bd : Board) : Nat := bd.order ^ 2

/-- Number of cells, `n²`. -/
def Board.ncells (bd : Board) : Nat := (bd.order ^ 2) ^ 2

/-- The candidate set of a cell: `bd.unknown.get(cell, set())`. -/
def Board.cand (bd : Board) (c : Nat) : Finset Nat := (bd.unknown c).getD ∅

/-- `board.elim`: `self.unknown.get(cell, set()).discard(val)` — remove `val`
from the candidate set of `cell` if `cell` is unknown, otherwise no-op. -/
def Board.elim (bd : Board) (cell val : Nat) : Board :=
  { bd with
    unknown := fun c =>
      if c = cell then (bd.unknown c).map (fun s => s.erase val)
      else bd.unknown c }

/-- `board.mark`: set `cell` to `val` in `known`, pop it from `unknown`, then
eliminate `val` from every cell of every division of `cell`.  (The two nested
loops `for div in cell2divs[cell]: for cell2 in div2cells[div]: elim(cell2,
val)` erase `val` from exactly the cells in `neighbors order cell`; the cell
itself has already been popped, so `elim` on it is a no-op.) -/
def Board.mark (bd : Board) (cell val : Nat) : Board :=
  { bd with
    known := fun c => if c = cell then some val else bd.known c
    unknown := fun c =>
      if c = cell then none
      else if c ∈ neighbors bd.order cell then (bd.unknown c).map (fun s => s.erase val)
      else bd.unknown c }

/-- `board.marked`: in this functional embedding, `copy` is the identity and
`marked` coincides with `mark`. -/
def Board.marked (bd : Board) (cell val : Nat) : Board := bd.mark cell val

/-- `blank(order)`: all cells unknown with full candidate sets
`set(range(1, n + 1))`. -/
def blank (order : Nat) : Board :=
  { order := order
    known := fun _ => none
    unknown := fun c =>
      if c < (order ^ 2) ^ 2 then some (Finset.Icc 1 (order ^ 2)) else none }

/-- `marked_up(order, *marks)`: a blank board with the given `(cell, val)`
marks applied in order. -/
def marked_up (order : Nat) (marks : List (Nat × Nat)) : Board :=
  marks.foldl (fun b m => b.mark m.1 m.2) (blank order)

/-! ## `isvalid` and `issolved` -/

/-- The inner condition of `isvalid` for a fixed known cell `cell0 ↦ val0`:
some neighbor `cell ≠ cell0` with `cell in bd.known` has
`val0 in {bd.known.get(cell)} | bd.unknown.get(cell, set())`. -/
def conflictAt (bd : Board) (cell0 val0 : Nat) : Bool :=
  decide (∃ cell ∈ neighbors bd.order cell0,
    (bd.known cell).isSome = true ∧ cell ≠ cell0 ∧
      (bd.known cell = some val0 ∨ val0 ∈ bd.cand cell))

/-- `isvalid(bd)`: no known cell's value conflicts (per `conflictAt`) with any
known neighbor.  Known cells are scanned over the cell range `[0, n²)` (for a
Python board, known keys outside this range would crash `neighbors`). -/
def isvalid (bd : Board) : Bool :=
  (List.range bd.ncells).all (fun cell0 =>
    match bd.known cell0 with
    | none => true
    | some val0 => !conflictAt bd cell0 val0)

/-- `issolved(bd)`: no unknown cells remain (scanned over `[0, n²)`). -/
def issolved (bd : Board) : Bool :=
  (List.range bd.ncells).all (fun c => (bd.unknown c).isNone)

/-! ## Structural lemmas about the division builder -/

theorem mem_cell2divs {order c d : Nat} :
    d ∈ cell2divs order c ↔
      d = c / order ^ 2 ∨ d = order ^ 2 + c % order ^ 2 ∨
        d = 2 * order ^ 2 + boxOf order (c / order ^ 2) (c % order ^ 2) := by
  simp [cell2divs]

theorem mem_div2cells {order d c : Nat} :
    c ∈ div2cells order d ↔ c < (order ^ 2) ^ 2 ∧ d ∈ cell2divs order c := by
  simp [div2cells]

theorem mul_add_lt {n a b : Nat} (ha : a < n) (hb : b < n) : a * n + b < n * n :=
  calc a * n + b < a * n + n := by omega
    _ = (a + 1) * n := by ring
    _ ≤ n * n := Nat.mul_le_mul_right _ ha

theorem rowcol_div {n i j : Nat} (hn : 0 < n) (hj : j < n) : (i * n + j) / n = i := by
  rw [Nat.mul_comm, Nat.mul_add_div hn, Nat.div_eq_of_lt hj]
  omega

theorem rowcol_mod {n i j : Nat} (hj : j < n) : (i * n + j) % n = j := by
  rw [Nat.mul_comm, Nat.mul_add_mod, Nat.mod_eq_of_lt hj]

theorem div_lt_of_lt_sq {order i : Nat} (h : i < order ^ 2) : i / order < order := by
  rcases Nat.eq_zero_or_pos order with h0 | h0
  · subst h0; simp at h
  · exact Nat.div_lt_iff_lt_mul h0 |>.mpr (by rw [pow_two] at h; exact h)

/-- For `c < n⁴`, the row index `c / n²` is below `n² ` (instance of
`div_lt_of_lt_sq` at `order := order²`). -/
theorem cell_row_lt {order c : Nat} (hc : c < (order ^ 2) ^ 2) :
    c / order ^ 2 < order ^ 2 := div_lt_of_lt_sq hc

theorem sq_pos_of_lt_sq {order c : Nat} (hc : c < (order ^ 2) ^ 2) : 0 < order ^ 2 := by
  rcases Nat.eq_zero_or_pos (order ^ 2) with h | h
  · rw [h] at hc; simp at hc
  · exact h

theorem cell_col_lt {order c : Nat} (hc : c < (order ^ 2) ^ 2) :
    c % order ^ 2 < order ^ 2 := Nat.mod_lt _ (sq_pos_of_lt_sq hc)

theorem boxOf_lt {order i j : Nat} (hi : i < order ^ 2) (hj : j < order ^ 2) :
    boxOf order i j < order ^ 2 := by
  have h1 := div_lt_of_lt_sq hi
  have h2 := div_lt_of_lt_sq hj
  rw [pow_two]
  exact mul_add_lt h1 h2

/-- Division indices of an in-range cell occupy the three disjoint ranges
`[0, n)`, `[n, 2n)`, `[2n, 3n)`. -/
theorem cell2divs_card {order c : Nat} (hc : c < (order ^ 2) ^ 2) :
    (cell2divs order c).card = 3 := by
  have hrow := cell_row_lt hc
  have hcol := cell_col_lt hc
  have hbox := boxOf_lt hrow hcol
  rw [cell2divs, Finset.card_insert_of_not_mem, Finset.card_insert_of_not_mem,
    Finset.card_singleton]
  · simp only [Finset.mem_insert, Finset.mem_singleton]
    generalize order ^ 2 = n at hrow hcol hbox ⊢
    omega
  · simp only [Finset.mem_insert, Finset.mem_singleton]
    generalize order ^ 2 = n at hrow hcol hbox ⊢
    omega

theorem mem_div2cells_row {order d c : Nat} (hd : d < order ^ 2) :
    c ∈ div2cells order d ↔ c < (order ^ 2) ^ 2 ∧ c / order ^ 2 = d := by
  rw [mem_div2cells, mem_cell2divs]
  generalize order ^ 2 = n at *
  constructor
  · rintro ⟨hc, h | h | h⟩
    · exact ⟨hc, h.symm⟩
    · omega
    · omega
  · rintro ⟨hc, h⟩; exact ⟨hc, Or.inl h.symm⟩

theorem mem_div2cells_col {order d c : Nat} (hd1 : order ^ 2 ≤ d) (hd2 : d < 2 * order ^ 2) :
    c ∈ div2cells order d ↔ c < (order ^ 2) ^ 2 ∧ order ^ 2 + c % order ^ 2 = d := by
  rw [mem_div2cells, mem_cell2divs]
  constructor
  · rintro ⟨hc, h | h | h⟩
    · have := cell_row_lt hc
      omega
    · exact ⟨hc, h.symm⟩
    · omega
  · rintro ⟨hc, h⟩; exact ⟨hc, Or.inr (Or.inl h.symm)⟩

theorem mem_div2cells_box {order d c : Nat} (hd1 : 2 * order ^ 2 ≤ d) :
    c ∈ div2cells order d ↔
      c < (order ^ 2) ^ 2 ∧
        2 * order ^ 2 + boxOf order (c / order ^ 2) (c % order ^ 2) = d := by
  rw [mem_div2cells, mem_cell2divs]
  constructor
  · rintro ⟨hc, h | h | h⟩
    · have := cell_row_lt hc
      omega
    · have := cell_col_lt hc
      omega
    · exact ⟨hc, h.symm⟩
  · rintro ⟨hc, h⟩; exact ⟨hc, Or.inr (Or.inr h.symm)⟩

theorem card_div2cells_row {order d : Nat} (h0 : 0 < order) (hd : d < order ^ 2) :
    (div2cells order d).card = order ^ 2 := by
  have hn : 0 < order ^ 2 := pow_pos h0 2
  have himg : div2cells order d = (Finset.range (order ^ 2)).image (fun j => d * order ^ 2 + j) := by
    ext c
    rw [mem_div2cells_row hd, Finset.mem_image]
    constructor
    · rintro ⟨hc, hdiv⟩
      refine ⟨c % order ^ 2, Finset.mem_range.mpr (Nat.mod_lt _ hn), ?_⟩
      rw [← hdiv, Nat.mul_comm]
      exact Nat.div_add_mod c _
    · rintro ⟨j, hj, rfl⟩
      rw [Finset.mem_range] at hj
      exact ⟨by rw [pow_two ((order:Nat) ^ 2)]; exact mul_add_lt hd hj, rowcol_div hn hj⟩
  rw [himg, Finset.card_image_of_injective _ (add_right_injective _), Finset.card_range]

theorem card_div2cells_col {order d : Nat} (h0 : 0 < order)
    (hd1 : order ^ 2 ≤ d) (hd2 : d < 2 * order ^ 2) :
    (div2cells order d).card = order ^ 2 := by
  have hn : 0 < order ^ 2 := pow_pos h0 2
  have hdn : d - order ^ 2 < order ^ 2 := by omega
  have himg : div2cells order d =
      (Finset.range (order ^ 2)).image (fun i => i * order ^ 2 + (d - order ^ 2)) := by
    ext c
    rw [mem_div2cells_col hd1 hd2, Finset.mem_image]
    constructor
    · rintro ⟨hc, hmod⟩
      refine ⟨c / order ^ 2, Finset.mem_range.mpr (cell_row_lt hc), ?_⟩
      rw [Nat.mul_comm]
      have := Nat.div_add_mod c (order ^ 2)
      omega
    · rintro ⟨i, hi, rfl⟩
      rw [Finset.mem_range] at hi
      refine ⟨by rw [pow_two ((order:Nat) ^ 2)]; exact mul_add_lt hi hdn, ?_⟩
      rw [rowcol_mod hdn]; omega
  rw [himg, Finset.card_image_of_injective, Finset.card_range]
  intro a b hab
  simp only at hab
  exact Nat.eq_of_mul_eq_mul_right hn (Nat.add_right_cancel hab)

theorem card_div2cells_box {order d : Nat} (h0 : 0 < order)
    (hd1 : 2 * order ^ 2 ≤ d) (hd2 : d < 3 * order ^ 2) :
    (div2cells order d).card = order ^ 2 := by
  have hn : 0 < order ^ 2 := pow_pos h0 2
  set b := d - 2 * order ^ 2 with hb
  have hbn : b < order ^ 2 := by omega
  have hbq : b / order < order := div_lt_of_lt_sq hbn
  have hbr : b % order < order := Nat.mod_lt _ h0
  have hcard : ((Finset.range order) ×ˢ (Finset.range order)).card = order ^ 2 := by
    rw [Finset.card_product, Finset.card_range, pow_two]
  rw [← hcard]
  refine Finset.card_bij'
    (fun c _ => (c / order ^ 2 % order, c % order ^ 2 % order))
    (fun p _ => (b / order * order + p.1) * order ^ 2 + (b % order * order + p.2))
    ?_ ?_ ?_ ?_
  · intro c _
    simp only [Finset.mem_product, Finset.mem_range]
    exact ⟨Nat.mod_lt _ h0, Nat.mod_lt _ h0⟩
  · intro p hp
    simp only [Finset.mem_product, Finset.mem_range] at hp
    obtain ⟨p1, p2⟩ := p
    obtain ⟨hp1, hp2⟩ := hp
    have hi : b / order * order + p1 < order ^ 2 := by rw [pow_two]; exact mul_add_lt hbq hp1
    have hj : b % order * order + p2 < order ^ 2 := by rw [pow_two]; exact mul_add_lt hbr hp2
    simp only
    rw [mem_div2cells_box hd1]
    refine ⟨by rw [pow_two ((order:Nat) ^ 2)]; exact mul_add_lt hi hj, ?_⟩
    rw [rowcol_div hn hj, rowcol_mod hj, boxOf,
      rowcol_div h0 hp1, rowcol_div h0 hp2, Nat.mul_comm (b / order) order]
    have := Nat.div_add_mod b order
    omega
  · intro c hc
    rw [mem_div2cells_box hd1] at hc
    obtain ⟨hclt, hbox⟩ := hc
    have hbox' : boxOf order (c / order ^ 2) (c % order ^ 2) = b := by omega
    rw [boxOf] at hbox'
    have hrow := cell_row_lt hclt
    have hcol := cell_col_lt hclt
    have hrq : c / order ^ 2 / order < order := div_lt_of_lt_sq hrow
    have hcq : c % order ^ 2 / order < order := div_lt_of_lt_sq hcol
    -- b's base-order digits are the row and column box indices
    have hbq' : b / order = c / order ^ 2 / order := by
      rw [← hbox', rowcol_div h0 hcq]
    have hbr' : b % order = c % order ^ 2 / order := by
      rw [← hbox', rowcol_mod hcq]
    simp only
    rw [hbq', hbr', Nat.mul_comm (c / order ^ 2 / order) order,
      Nat.mul_comm (c % order ^ 2 / order) order, Nat.div_add_mod, Nat.div_add_mod,
      Nat.mul_comm, Nat.div_add_mod]
  · intro p hp
    simp only [Finset.mem_product, Finset.mem_range] at hp
    obtain ⟨p1, p2⟩ := p
    obtain ⟨hp1, hp2⟩ := hp
    have hi : b / order * order + p1 < order ^ 2 := by rw [pow_two]; exact mul_add_lt hbq hp1
    have hj : b % order * order + p2 < order ^ 2 := by rw [pow_two]; exact mul_add_lt hbr hp2
    simp only
    rw [rowcol_div hn hj, rowcol_mod hj, rowcol_mod hp1, rowcol_mod hp2]

theorem card_div2cells {order d : Nat} (h0 : 0 < order) (hd : d < 3 * order ^ 2) :
    (div2cells order d).card = order ^ 2 := by
  rcases Nat.lt_or_ge d (order ^ 2) with h | h
  · exact card_div2cells_row h0 h
  rcases Nat.lt_or_ge d (2 * order ^ 2) with h' | h'
  · exact card_div2cells_col h0 h h'
  · exact card_div2cells_box h0 h' hd

/-- C5: for all `order ≥ 1`, with `n = order²`, the cell at row `i`, column
`j` has exactly the 3 divisions `{i, n+j, 2n + (i/order)*order + j/order}`;
each of the `3n` divisions holds exactly `n` cells; and `div2cells` is the
exact transpose of `cell2divs` (over the cell range `[0, n²)`, the key set of
`cell2divs`). -/
theorem C5_board_divs_structure (order : Nat) (h : 1 ≤ order) :
    (∀ i j, i < order ^ 2 → j < order ^ 2 →
      cell2divs order (i * order ^ 2 + j) =
          {i, order ^ 2 + j, 2 * order ^ 2 + (i / order * order + j / order)} ∧
        (cell2divs order (i * order ^ 2 + j)).card = 3) ∧
    (∀ d, d < 3 * order ^ 2 → (div2cells order d).card = order ^ 2) ∧
    (∀ c d, c ∈ div2cells order d ↔ c < (order ^ 2) ^ 2 ∧ d ∈ cell2divs order c) := by
  have hn : 0 < order ^ 2 := pow_pos h 2
  refine ⟨fun i j hi hj => ?_, fun d hd => card_div2cells h hd, fun c d => mem_div2cells⟩
  have hc : i * order ^ 2 + j < (order ^ 2) ^ 2 := by
    rw [pow_two ((order:Nat) ^ 2)]; exact mul_add_lt hi hj
  constructor
  · rw [cell2divs, rowcol_div hn hj, rowcol_mod hj, boxOf]
  · exact cell2divs_card hc

/-- Witness for `C5_board_divs_structure` at `order = 2`. -/
theorem C5_board_divs_structure_witness :
    1 ≤ 2 ∧
      ((∀ i j, i < 2 ^ 2 → j < 2 ^ 2 →
        cell2divs 2 (i * 2 ^ 2 + j) =
            {i, 2 ^ 2 + j, 2 * 2 ^ 2 + (i / 2 * 2 + j / 2)} ∧
          (cell2divs 2 (i * 2 ^ 2 + j)).card = 3) ∧
      (∀ d, d < 3 * 2 ^ 2 → (div2cells 2 d).card = 2 ^ 2) ∧
      (∀ c d, c ∈ div2cells 2 d ↔ c < (2 ^ 2) ^ 2 ∧ d ∈ cell2divs 2 c)) :=
  ⟨by decide, C5_board_divs_structure 2 (by decide)⟩

/-! ## The known/unknown partition invariant -/

/-- The key sets of `known` and `unknown` are disjoint, and their union is
exactly the cell range `[0, n²)`. -/
def Partition (bd : Board) : Prop :=
  ∀ c, ¬((bd.known c).isSome = true ∧ (bd.unknown c).isSome = true) ∧
    (((bd.known c).isSome = true ∨ (bd.unknown c).isSome = true) ↔ c < bd.ncells)

/-- Boards reachable from `blank order` by `mark` and `elim` operations.
`mark` steps are restricted to in-range cells: in Python, `mark` on a cell
outside `[0, n²)` raises `KeyError` from `cell2divs[cell]`. -/
inductive Reachable (order : Nat) : Board → Prop where
  | blank : Reachable order (blank order)
  | mark : ∀ bd cell val, Reachable order bd → cell < (order ^ 2) ^ 2 →
      Reachable order (bd.mark cell val)
  | elim : ∀ bd cell val, Reachable order bd → Reachable order (bd.elim cell val)

@[simp] theorem mark_order (bd : Board) (cell val : Nat) :
    (bd.mark cell val).order = bd.order := rfl

@[simp] theorem elim_order (bd : Board) (cell val : Nat) :
    (bd.elim cell val).order = bd.order := rfl

@[simp] theorem mark_ncells (bd : Board) (cell val : Nat) :
    (bd.mark cell val).ncells = bd.ncells := rfl

@[simp] theorem elim_ncells (bd : Board) (cell val : Nat) :
    (bd.elim cell val).ncells = bd.ncells := rfl

theorem partition_blank (order : Nat) : Partition (blank order) := by
  intro c
  by_cases hc : c < (order ^ 2) ^ 2 <;>
    simp [blank, Board.ncells, hc]

theorem partition_mark {bd : Board} (h : Partition bd) {cell : Nat} (val : Nat)
    (hcell : cell < bd.ncells) : Partition (bd.mark cell val) := by
  intro c
  obtain ⟨hdisj, huniv⟩ := h c
  by_cases hc : c = cell
  · subst hc
    simp [Board.mark, Board.ncells, hcell]
    show c < (bd.order ^ 2) ^ 2
    exact hcell
  · simp only [Board.mark, Board.ncells] at *
    simp only [if_neg hc]
    by_cases hn : c ∈ neighbors bd.order cell <;>
      simp [hn, hdisj, huniv, Option.isSome_map']

theorem elim_known (bd : Board) (cell val c : Nat) :
    (bd.elim cell val).known c = bd.known c := rfl

theorem elim_unknown_isSome (bd : Board) (cell val c : Nat) :
    ((bd.elim cell val).unknown c).isSome = (bd.unknown c).isSome := by
  by_cases hc : c = cell <;> simp [Board.elim, hc, Option.isSome_map']

theorem partition_elim {bd : Board} (h : Partition bd) (cell val : Nat) :
    Partition (bd.elim cell val) := by
  intro c
  obtain ⟨hdisj, huniv⟩ := h c
  rw [elim_known, elim_unknown_isSome, elim_ncells]
  exact ⟨hdisj, huniv⟩

theorem partition_reachable {order : Nat} {bd : Board} (h : Reachable order bd) :
    Partition bd ∧ bd.order = order := by
  induction h with
  | blank => exact ⟨partition_blank order, rfl⟩
  | mark bd cell val _ hcell ih =>
      refine ⟨partition_mark ih.1 val ?_, ih.2⟩
      show cell < (bd.order ^ 2) ^ 2
      rw [ih.2]; exact hcell
  | elim bd cell val _ ih => exact ⟨partition_elim ih.1 cell val, ih.2⟩

/-- C9: every board reachable from `blank order` by `mark`/`elim` sequences
satisfies the partition invariant (`known` and `unknown` key sets disjoint,
union exactly `[0, n²)`), and each single `mark` (on an in-range cell) and
`elim` preserves the invariant. -/
theorem C9_partition_invariant (order : Nat) :
    (∀ bd, Reachable order bd → Partition bd) ∧
    (∀ bd cell val, Partition bd → cell < bd.ncells → Partition (bd.mark cell val)) ∧
    (∀ bd cell val, Partition bd → Partition (bd.elim cell val)) :=
  ⟨fun _ h => (partition_reachable h).1,
   fun _ _ val h hc => partition_mark h val hc,
   fun _ _ val h => partition_elim h _ val⟩

/-- Witness for `C9_partition_invariant`: the partition invariant holds for a
concrete reachable board of order 2. -/
theorem C9_partition_invariant_witness :
    Partition (((blank 2).mark 0 1).elim 5 1) :=
  (C9_partition_invariant 2).1 _
    (Reachable.elim _ 5 1 (Reachable.mark _ 0 1 Reachable.blank (by decide)))

end Sudoku

namespace Sudoku

/-! ## C4: `mark` on an already-known cell -/

/-- Counterexample to C4: `mark` carries no precondition check.  Marking the
already-known cell 0 (value 1) with value 2 does not fail; it silently
overwrites the stored value.  (In the Python source, `board.mark` assigns
`self.known[cell] = val` unconditionally; only the constructor asserts
disjointness.) -/
theorem C4_counterexample :
    (((blank 1).mark 0 1).known 0 = some 1) ∧
      (((blank 1).mark 0 1).mark 0 2).known 0 = some 2 := by
  constructor <;> rfl

/-- C4 amended: `mark` does not validate its precondition.  Called on an
already-known cell it silently overwrites the existing value (and leaves the
cell absent from `unknown`); no assertion or error is raised. -/
theorem C4_mark_overwrites (bd : Board) (cell val v0 : Nat)
    (h : bd.known cell = some v0) :
    (bd.mark cell val).known cell = some val ∧
      (bd.mark cell val).unknown cell = none := by
  simp [Board.mark]

/-- Witness for `C4_mark_overwrites` on a concrete already-known cell. -/
theorem C4_mark_overwrites_witness :
    ((blank 1).mark 0 1).known 0 = some 1 ∧
      ((((blank 1).mark 0 1).mark 0 2).known 0 = some 2 ∧
        (((blank 1).mark 0 1).mark 0 2).unknown 0 = none) :=
  ⟨by rfl, C4_mark_overwrites _ 0 2 1 (by rfl)⟩

/-! ## C3: what `isvalid` actually checks -/

/-- The cells of a division as an ascending list (same membership as
`div2cells`). -/
def div2cellsList (order d : Nat) : List Nat :=
  (List.range ((order ^ 2) ^ 2)).filter (fun c => decide (d ∈ cell2divs order c))

theorem mem_div2cellsList {order d c : Nat} :
    c ∈ div2cellsList order d ↔ c ∈ div2cells order d := by
  simp [div2cellsList, mem_div2cells, List.mem_filter]

/-- The validity condition as worded by the spec (claim C3): in every
division, no two known cells share a value, and no cell's candidate set
contains a value already fixed by another known cell of the division. -/
def validPerSpec (bd : Board) : Bool :=
  (List.range (3 * bd.order ^ 2)).all fun d =>
    (div2cellsList bd.order d).all fun c =>
      match bd.known c with
      | none => true
      | some v =>
          (div2cellsList bd.order d).all fun c2 =>
            (c2 == c) || (!(bd.known c2 == some v) && !(decide (v ∈ bd.cand c2)))

/-- An order-2 board in which cell 0 is known with value 1 while its neighbor
cell 1 still carries 1 as a candidate (a state the `mark`-maintained
invariant would normally rule out, but which the `board` constructor
accepts). -/
def leakyBoard : Board :=
  { order := 2
    known := fun c => if c = 0 then some 1 else none
    unknown := fun c =>
      if c = 0 then none else if c < 16 then some {1, 2, 3, 4} else none }

/-- Counterexample to C3: `leakyBoard` has an unknown neighbor (cell 1) whose
candidate set contains the value 1 fixed by known cell 0 in a shared
division, so per the claim `isvalid` should return `false`; the code returns
`true` (the candidate clause of `isvalid` is evaluated only at *known* cells,
where the candidate set is empty). -/
theorem C3_counterexample :
    isvalid leakyBoard = true ∧ validPerSpec leakyBoard = false ∧
      leakyBoard.known 0 = some 1 ∧ 1 ∈ neighbors 2 0 ∧
      (leakyBoard.unknown 1).isSome = true ∧ 1 ∈ leakyBoard.cand 1 := by
  refine ⟨by decide, by decide, by decide, by decide, by decide, by decide⟩

theorem isvalid_iff {bd : Board} :
    isvalid bd = true ↔
      ∀ c0, c0 < bd.ncells → ∀ v0, bd.known c0 = some v0 →
        ∀ c ∈ neighbors bd.order c0, (bd.known c).isSome = true → c ≠ c0 →
          ¬(bd.known c = some v0 ∨ v0 ∈ bd.cand c) := by
  unfold isvalid
  rw [List.all_eq_true]
  constructor
  · intro h c0 hc0 v0 hv0 c hc hks hne
    have h2 := h c0 (List.mem_range.mpr hc0)
    rw [hv0] at h2
    simp only [Bool.not_eq_true'] at h2
    rw [conflictAt, decide_eq_false_iff_not] at h2
    exact fun hor => h2 ⟨c, hc, hks, hne, hor⟩
  · intro h x hx
    rcases hk : bd.known x with _ | v0
    · simp
    · simp only [Bool.not_eq_true']
      rw [conflictAt, decide_eq_false_iff_not]
      rintro ⟨c, hc, hks, hne, hor⟩
      exact h x (List.mem_range.mp hx) v0 hk c hc hks hne hor

/-- C3 amended: for boards satisfying the constructor's disjointness
assertion (`known` and `unknown` key sets disjoint), `isvalid` is true iff no
two *known* cells sharing a division have equal values.  The candidate-set
clause of the claim is not checked: `isvalid` only examines neighbors that
are themselves known, and at a known cell the candidate set is empty. -/
theorem C3_isvalid_ignores_candidates (bd : Board)
    (hdisj : ∀ c, ¬((bd.known c).isSome = true ∧ (bd.unknown c).isSome = true)) :
    isvalid bd = true ↔
      ∀ c0, c0 < bd.ncells → ∀ v0, bd.known c0 = some v0 →
        ∀ c ∈ neighbors bd.order c0, c ≠ c0 → bd.known c ≠ some v0 := by
  rw [isvalid_iff]
  constructor
  · intro h c0 hc0 v0 hv0 c hc hne heq
    exact h c0 hc0 v0 hv0 c hc (by rw [heq]; rfl) hne (Or.inl heq)
  · intro h c0 hc0 v0 hv0 c hc hks hne hor
    rcases hor with heq | hcand
    · exact h c0 hc0 v0 hv0 c hc hne heq
    · rcases hu : bd.unknown c with _ | s
      · rw [Board.cand, hu] at hcand
        simp at hcand
      · exact hdisj c ⟨hks, by rw [hu]; rfl⟩

/-- Witness for `C3_isvalid_ignores_candidates` on a concrete board whose
`unknown` map is empty. -/
theorem C3_isvalid_ignores_candidates_witness :
    (∀ c, ¬(((Board.mk 1 (fun c => if c = 0 then some 1 else none)
        (fun _ => none)).known c).isSome = true ∧
      (((Board.mk 1 (fun c => if c = 0 then some 1 else none)
        (fun _ => none)).unknown c)).isSome = true)) ∧
    (isvalid (Board.mk 1 (fun c => if c = 0 then some 1 else none) (fun _ => none)) = true ↔
      ∀ c0, c0 < (Board.mk 1 (fun c => if c = 0 then some 1 else none)
          (fun _ => none)).ncells →
        ∀ v0, (Board.mk 1 (fun c => if c = 0 then some 1 else none)
          (fun _ => none)).known c0 = some v0 →
        ∀ c ∈ neighbors (Board.mk 1 (fun c => if c = 0 then some 1 else none)
          (fun _ => none)).order c0, c ≠ c0 →
          (Board.mk 1 (fun c => if c = 0 then some 1 else none)
            (fun _ => none)).known c ≠ some v0) :=
  ⟨fun c => by simp, C3_isvalid_ignores_candidates _ (fun c => by simp)⟩

end Sudoku

namespace Sudoku

/-! ## Candidate-set utilities -/

/-- The elements of a finite set of naturals, as an ascending list
(a computable replacement for `Finset.sort`). -/
def ascList (s : Finset Nat) : List Nat :=
  (List.range (s.sup id + 1)).filter (fun v => decide (v ∈ s))

theorem mem_ascList {s : Finset Nat} {v : Nat} : v ∈ ascList s ↔ v ∈ s := by
  simp only [ascList, List.mem_filter, List.mem_range, decide_eq_true_eq]
  constructor
  · exact fun h => h.2
  · intro h
    exact ⟨Nat.lt_succ_of_le (Finset.le_sup (f := id) h), h⟩

theorem mem_cand {bd : Board} {c v : Nat} :
    v ∈ bd.cand c ↔ ∃ s, bd.unknown c = some s ∧ v ∈ s := by
  unfold Board.cand
  rcases h : bd.unknown c with _ | s <;> simp [h]

/-- All candidate values appearing among the (unknown) cells of division `d`
— the key set of `placements(bd, d)`. -/
def divCandUnion (bd : Board) (d : Nat) : Finset Nat :=
  (div2cells bd.order d).biUnion (fun c => bd.cand c)

/-- `placements(bd, div)` as a function: the value `v` is mapped to the
unknown cells of the division whose candidate set contains `v`. -/
def placements (bd : Board) (d : Nat) (v : Nat) : Finset Nat :=
  (div2cells bd.order d).filter (fun c => v ∈ bd.cand c)

/-! ## The three deduction rules -/

/-- `mark_single_vals`: the "naked single" rule.  Scans the unknown cells in
ascending order; any cell whose (current) candidate set is a singleton is
marked with that value.  The returned flag records whether any mark
happened. -/
def mark_single_vals (bd : Board) : Bool × Board :=
  (List.range bd.ncells).foldl
    (fun acc c =>
      match acc.2.unknown c with
      | some s => if s.card = 1 then (true, acc.2.mark c (s.sup id)) else acc
      | none => acc)
    (false, bd)

/-- One division pass of `mark_single_cells`: `placements` is materialised on
entry to the division (`pl`); each value mapping to exactly one cell is
marked there, guarded by a live check that the value is still a candidate of
that cell. -/
def mscDiv (acc : Bool × Board) (d : Nat) : Bool × Board :=
  let bd := acc.2
  (ascList (divCandUnion bd d)).foldl
    (fun acc2 v =>
      if (placements bd d v).card = 1 then
        let c := (placements bd d v).sup id
        if v ∈ acc2.2.cand c then (true, acc2.2.mark c v) else acc2
      else acc2)
    acc

/-- `mark_single_cells`: the "hidden single" rule, a pass over all
divisions. -/
def mark_single_cells (bd : Board) : Bool × Board :=
  (List.range (3 * bd.order ^ 2)).foldl mscDiv (false, bd)

/-- `intersection(bd.cell2divs[cell] for cell in cells)`: for nonempty
`cells`, the divisions common to every cell of `cells` (computed as a filter
of the divisions of one member; Python's `reduce` crashes on an empty
argument, which `mark_excluded` never produces). -/
def commonDivs (order : Nat) (cells : Finset Nat) : Finset Nat :=
  (cell2divs order (cells.sup id)).filter
    (fun d => ∀ c ∈ cells, d ∈ cell2divs order c)

/-- The elementary elimination of `mark_excluded`: `bd.elim(cell, val)`
guarded by the live check `val in bd.unknown[cell]`. -/
def mexCellStep (v : Nat) (acc : Bool × Board) (c : Nat) : Bool × Board :=
  if v ∈ acc.2.cand c then (true, acc.2.elim c v) else acc

/-- `bd.div2cells[div] - cells - set(bd.known)` as an ascending list, with
`bd.known` read from the division-entry snapshot `S` (`mark_excluded` never
changes `known`). -/
def mexCellList (S : Board) (cells : Finset Nat) (dv : Nat) : List Nat :=
  (div2cellsList S.order dv).filter (fun c => decide (c ∉ cells) && (S.known c).isNone)

/-- Processing of one value `v` of division `div0` inside `mark_excluded`:
for each division common to the `v`-carrying unknown cells of `div0` (other
than `div0` itself), eliminate `v` from the listed cells. -/
def mexValStep (S : Board) (div0 : Nat) (acc1 : Bool × Board) (v : Nat) : Bool × Board :=
  (ascList (commonDivs S.order (placements S div0 v) \ {div0})).foldl
    (fun acc2 dv => (mexCellList S (placements S div0 v) dv).foldl (mexCellStep v) acc2) acc1

/-- One division pass of `mark_excluded`: `placements` (and `known`) are
snapshotted on entry to the division, eliminations are applied value by
value with a live candidacy guard. -/
def mexDiv (acc : Bool × Board) (div0 : Nat) : Bool × Board :=
  (ascList (divCandUnion acc.2 div0)).foldl (mexValStep acc.2 div0) acc

theorem mem_mexCellList {S : Board} {cells : Finset Nat} {dv c : Nat} :
    c ∈ mexCellList S cells dv ↔
      c ∈ div2cells S.order dv ∧ c ∉ cells ∧ S.known c = none := by
  unfold mexCellList
  rw [List.mem_filter, mem_div2cellsList]
  simp [Option.isNone_iff_eq_none]

/-- `mark_excluded`: the "locked candidate" exclusion rule, a pass over all
divisions. -/
def mark_excluded (bd : Board) : Bool × Board :=
  (List.range (3 * bd.order ^ 2)).foldl mexDiv (false, bd)

/-- One iteration of the `while any(fn(bd) for fn in fns)` loop of
`mark_forced`: `any` short-circuits, so `mark_single_cells` runs only when
`mark_single_vals` reported no change, and `mark_excluded` only when both
predecessors reported no change (a rule reporting `false` has not modified
the board). -/
def stepOnce (bd : Board) : Bool × Board :=
  let r1 := mark_single_vals bd
  if r1.1 then r1
  else
    let r2 := mark_single_cells r1.2
    if r2.1 then r2
    else mark_excluded r2.2

/-- Weight of a cell for the termination measure: `card + 1` if unknown. -/
def cellWeight (bd : Board) (c : Nat) : Nat :=
  ((bd.unknown c).map (fun s => s.card + 1)).getD 0

/-- Termination measure: total candidate weight over the cell range. -/
def Board.measure (bd : Board) : Nat :=
  ∑ c ∈ Finset.range bd.ncells, cellWeight bd c

/-- The fixed-point loop of `mark_forced`, with explicit fuel.  `mark_forced`
supplies fuel exceeding the measure, which strictly decreases at every
productive step, so the fuel never runs out. -/
def mfLoop : Nat → Board → Board
  | 0, bd => bd
  | fuel + 1, bd =>
      let r := stepOnce bd
      if r.1 then mfLoop fuel r.2 else bd

/-- `mark_forced`: iterate naked single, hidden single and exclusion to a
fixed point. -/
def mark_forced (bd : Board) : Board := mfLoop (bd.measure + 1) bd

end Sudoku


namespace Sudoku

/-! ## Fold invariant machinery -/

theorem foldl_inv {α : Type _} {P : Bool × Board → Prop} (f : Bool × Board → α → Bool × Board)
    (l : List α) (acc : Bool × Board) (h0 : P acc)
    (hstep : ∀ a x, x ∈ l → P a → P (f a x)) : P (l.foldl f acc) := by
  induction l generalizing acc with
  | nil => exact h0
  | cons x xs ih =>
      exact ih (f acc x) (hstep acc x (List.mem_cons_self x xs)
        h0) (fun a y hy => hstep a y (List.mem_cons_of_mem x hy))

theorem cellWeight_mark_le (bd : Board) (cell val c : Nat) :
    cellWeight (bd.mark cell val) c ≤ cellWeight bd c := by
  unfold cellWeight
  simp only [Board.mark]
  by_cases h1 : c = cell
  · simp [h1]
  · simp only [if_neg h1]
    by_cases h2 : c ∈ neighbors bd.order cell
    · simp only [if_pos h2]
      rcases bd.unknown c with _ | s
      · simp
      · simp only [Option.map_some', Option.getD_some]
        have := Finset.card_erase_le (s := s) (a := val)
        omega
    · simp [h2]

theorem cellWeight_elim_le (bd : Board) (cell val c : Nat) :
    cellWeight (bd.elim cell val) c ≤ cellWeight bd c := by
  unfold cellWeight
  simp only [Board.elim]
  by_cases h1 : c = cell
  · subst h1
    simp only [eq_self_iff_true, if_true]
    rcases bd.unknown c with _ | s
    · simp
    · simp only [Option.map_some', Option.getD_some]
      have := Finset.card_erase_le (s := s) (a := val)
      omega
  · simp [h1]

theorem measure_mark_lt {bd : Board} {cell : Nat} (val : Nat) (hc : cell < bd.ncells)
    {s : Finset Nat} (hu : bd.unknown cell = some s) :
    (bd.mark cell val).measure < bd.measure := by
  unfold Board.measure
  rw [mark_ncells]
  apply Finset.sum_lt_sum
  · intro i _
    exact cellWeight_mark_le bd cell val i
  · refine ⟨cell, Finset.mem_range.mpr hc, ?_⟩
    unfold cellWeight
    simp [Board.mark, hu]

theorem measure_elim_lt {bd : Board} {cell val : Nat} (hc : cell < bd.ncells)
    (hv : val ∈ bd.cand cell) : (bd.elim cell val).measure < bd.measure := by
  obtain ⟨s, hu, hvs⟩ := mem_cand.mp hv
  unfold Board.measure
  rw [elim_ncells]
  apply Finset.sum_lt_sum
  · intro i _
    exact cellWeight_elim_le bd cell val i
  · refine ⟨cell, Finset.mem_range.mpr hc, ?_⟩
    unfold cellWeight
    simp only [Board.elim, eq_self_iff_true, if_true, hu, Option.map_some', Option.getD_some]
    have h1 : 0 < s.card := Finset.card_pos.mpr ⟨val, hvs⟩
    have h2 := Finset.card_erase_of_mem hvs
    omega

/-- Invariant carried through each rule's fold: the order is preserved, a
`true` flag certifies a strict measure decrease, and a `false` flag
certifies that the board is untouched. -/
def RuleInv (bd0 : Board) (acc : Bool × Board) : Prop :=
  acc.2.order = bd0.order ∧
    (acc.1 = true → acc.2.measure < bd0.measure) ∧
    (acc.1 = false → acc.2 = bd0)

theorem ruleInv_init (bd0 : Board) : RuleInv bd0 (false, bd0) :=
  ⟨rfl, ⟨fun h => Bool.noConfusion h, fun _ => rfl⟩⟩

theorem ruleInv_mark {bd0 : Board} {acc : Bool × Board} (h : RuleInv bd0 acc)
    {cell : Nat} (val : Nat) (hc : cell < bd0.ncells) {s : Finset Nat}
    (hu : acc.2.unknown cell = some s) : RuleInv bd0 (true, acc.2.mark cell val) := by
  obtain ⟨horder, htrue, hfalse⟩ := h
  have hc' : cell < acc.2.ncells := by
    unfold Board.ncells
    rw [horder]
    exact hc
  have hlt := measure_mark_lt val hc' hu
  refine ⟨by rw [mark_order, horder], fun _ => ?_, fun h => Bool.noConfusion h⟩
  rcases hb : acc.1 with _ | _
  · rw [hfalse hb] at hlt ⊢
    exact hlt
  · exact lt_trans hlt (htrue hb)

theorem ruleInv_elim {bd0 : Board} {acc : Bool × Board} (h : RuleInv bd0 acc)
    {cell val : Nat} (hc : cell < bd0.ncells)
    (hv : val ∈ acc.2.cand cell) : RuleInv bd0 (true, acc.2.elim cell val) := by
  obtain ⟨horder, htrue, hfalse⟩ := h
  have hc' : cell < acc.2.ncells := by
    unfold Board.ncells
    rw [horder]
    exact hc
  have hlt := measure_elim_lt hc' hv
  refine ⟨by rw [elim_order, horder], fun _ => ?_, fun h => Bool.noConfusion h⟩
  rcases hb : acc.1 with _ | _
  · rw [hfalse hb] at hlt ⊢
    exact hlt
  · exact lt_trans hlt (htrue hb)

theorem msv_inv (bd : Board) : RuleInv bd (mark_single_vals bd) := by
  unfold mark_single_vals
  apply foldl_inv _ _ _ (ruleInv_init bd)
  intro a c hc ha
  rcases hu : a.2.unknown c with _ | s
  · simpa [hu] using ha
  · simp only [hu]
    by_cases h1 : s.card = 1
    · simp only [if_pos h1]
      exact ruleInv_mark ha _ (List.mem_range.mp hc) hu
    · simpa [h1] using ha

theorem mem_placements {bd : Board} {d v c : Nat} :
    c ∈ placements bd d v ↔ c ∈ div2cells bd.order d ∧ v ∈ bd.cand c := by
  simp [placements]

/-- A nonempty finite set of naturals contains its `sup id`. -/
theorem sup_id_mem {s : Finset Nat} (h : s.Nonempty) : s.sup id ∈ s := by
  rcases Finset.exists_mem_eq_sup s h id with ⟨a, ha, hs⟩
  rw [hs]
  exact ha

theorem card_one_eq_sup_singleton {s : Finset Nat} (h : s.card = 1) :
    s = {s.sup id} := by
  obtain ⟨a, ha⟩ := Finset.card_eq_one.mp h
  subst ha
  simp

theorem mscDiv_inv {bd0 : Board} {acc : Bool × Board} (d : Nat) (h : RuleInv bd0 acc) :
    RuleInv bd0 (mscDiv acc d) := by
  unfold mscDiv
  apply foldl_inv _ _ _ h
  intro a v _ ha
  by_cases h1 : (placements acc.2 d v).card = 1
  · simp only [if_pos h1]
    by_cases h2 : v ∈ a.2.cand ((placements acc.2 d v).sup id)
    · simp only [if_pos h2]
      obtain ⟨s, hu, _⟩ := mem_cand.mp h2
      apply ruleInv_mark ha _ _ hu
      have hmem : (placements acc.2 d v).sup id ∈ placements acc.2 d v :=
        sup_id_mem (Finset.card_pos.mp (by omega))
      have hdd := (mem_placements.mp hmem).1
      have hlt := (mem_div2cells.mp hdd).1
      unfold Board.ncells
      rw [← h.1]
      exact hlt
    · simpa [h2] using ha
  · simpa [h1] using ha

theorem msc_inv (bd : Board) : RuleInv bd (mark_single_cells bd) := by
  unfold mark_single_cells
  apply foldl_inv _ _ _ (ruleInv_init bd)
  intro a d _ ha
  exact mscDiv_inv d ha

theorem mexDiv_inv {bd0 : Board} {acc : Bool × Board} (div0 : Nat) (h : RuleInv bd0 acc) :
    RuleInv bd0 (mexDiv acc div0) := by
  unfold mexDiv
  apply foldl_inv _ _ _ h
  intro a1 v _ ha1
  unfold mexValStep
  apply foldl_inv _ _ _ ha1
  intro a2 dv _ ha2
  apply foldl_inv _ _ _ ha2
  intro a3 c hc ha3
  unfold mexCellStep
  by_cases h1 : v ∈ a3.2.cand c
  · simp only [if_pos h1]
    apply ruleInv_elim ha3 _ h1
    have hlt := (mem_div2cells.mp (mem_mexCellList.mp hc).1).1
    unfold Board.ncells
    rw [← h.1]
    exact hlt
  · simpa [h1] using ha3

theorem mex_inv (bd : Board) : RuleInv bd (mark_excluded bd) := by
  unfold mark_excluded
  apply foldl_inv _ _ _ (ruleInv_init bd)
  intro a d _ ha
  exact mexDiv_inv d ha

theorem stepOnce_inv (bd : Board) : RuleInv bd (stepOnce bd) := by
  have h1 := msv_inv bd
  have h2 := msc_inv bd
  simp only [stepOnce]
  rcases hb1 : (mark_single_vals bd).1 with _ | _
  · simp only [Bool.false_eq_true, if_false]
    rw [h1.2.2 hb1]
    rcases hb2 : (mark_single_cells bd).1 with _ | _
    · simp only [Bool.false_eq_true, if_false]
      rw [h2.2.2 hb2]
      exact mex_inv bd
    · simp only [if_true]
      exact h2
  · simp only [if_true]
    exact h1

theorem mfLoop_succ (f : Nat) (bd : Board) :
    mfLoop (f + 1) bd =
      if (stepOnce bd).1 then mfLoop f (stepOnce bd).2 else bd := rfl

theorem mfLoop_fixpoint {fuel : Nat} {bd : Board} (h : bd.measure < fuel) :
    (stepOnce (mfLoop fuel bd)).1 = false := by
  induction fuel generalizing bd with
  | zero => omega
  | succ f ih =>
      rw [mfLoop_succ]
      rcases hb : (stepOnce bd).1 with _ | _
      · simpa [hb] using hb
      · simp only [if_true]
        apply ih
        have := (stepOnce_inv bd).2.1 hb
        omega

theorem mark_forced_fixpoint (bd : Board) : (stepOnce (mark_forced bd)).1 = false :=
  mfLoop_fixpoint (Nat.lt_succ_self _)

theorem mark_forced_of_fixpoint {bd : Board} (h : (stepOnce bd).1 = false) :
    mark_forced bd = bd := by
  unfold mark_forced
  rw [mfLoop_succ, h]
  simp

/-- C7: `mark_forced` is idempotent — applying it a second time to the
result of `mark_forced(b)` changes nothing: on the fixed point every rule
reports `false`, and a rule reporting `false` has not modified the board. -/
theorem C7_mark_forced_idempotent (bd : Board) :
    mark_forced (mark_forced bd) = mark_forced bd :=
  mark_forced_of_fixpoint (mark_forced_fixpoint bd)

theorem mark_forced_order (bd : Board) : (mark_forced bd).order = bd.order := by
  unfold mark_forced
  generalize bd.measure + 1 = fuel
  induction fuel generalizing bd with
  | zero => rfl
  | succ f ih =>
      rw [mfLoop_succ]
      rcases hb : (stepOnce bd).1 with _ | _
      · simp [hb]
      · simp only [if_true]
        rw [ih]
        exact (stepOnce_inv bd).1

end Sudoku

namespace Sudoku

/-! ## Pointwise lemmas about `mark` and `elim` -/

theorem known_mark_self (bd : Board) (cell val : Nat) :
    (bd.mark cell val).known cell = some val := by
  simp [Board.mark]

theorem known_mark_other {bd : Board} {cell c : Nat} (val : Nat) (h : c ≠ cell) :
    (bd.mark cell val).known c = bd.known c := by
  simp [Board.mark, h]

theorem unknown_mark_self (bd : Board) (cell val : Nat) :
    (bd.mark cell val).unknown cell = none := by
  simp [Board.mark]

theorem cand_mark_self (bd : Board) (cell val : Nat) :
    (bd.mark cell val).cand cell = ∅ := by
  simp [Board.cand, unknown_mark_self]

theorem cand_mark_neighbor {bd : Board} {cell c : Nat} (val : Nat) (h1 : c ≠ cell)
    (h2 : c ∈ neighbors bd.order cell) :
    (bd.mark cell val).cand c = (bd.cand c).erase val := by
  unfold Board.cand
  simp only [Board.mark, if_neg h1, if_pos h2]
  rcases bd.unknown c with _ | s <;> simp

theorem cand_mark_other {bd : Board} {cell c : Nat} (val : Nat) (h1 : c ≠ cell)
    (h2 : c ∉ neighbors bd.order cell) :
    (bd.mark cell val).cand c = bd.cand c := by
  unfold Board.cand
  simp [Board.mark, h1, h2]

theorem cand_mark_subset (bd : Board) (cell val c : Nat) :
    (bd.mark cell val).cand c ⊆ bd.cand c := by
  by_cases h1 : c = cell
  · subst h1
    rw [cand_mark_self]
    exact Finset.empty_subset _
  · by_cases h2 : c ∈ neighbors bd.order cell
    · rw [cand_mark_neighbor val h1 h2]
      exact Finset.erase_subset _ _
    · rw [cand_mark_other val h1 h2]

theorem known_elim (bd : Board) (cell val c : Nat) :
    (bd.elim cell val).known c = bd.known c := rfl

theorem cand_elim_self (bd : Board) (cell val : Nat) :
    (bd.elim cell val).cand cell = (bd.cand cell).erase val := by
  unfold Board.cand
  simp only [Board.elim, if_pos rfl]
  rcases bd.unknown cell with _ | s <;> simp

theorem cand_elim_other {bd : Board} {cell c : Nat} (val : Nat) (h : c ≠ cell) :
    (bd.elim cell val).cand c = bd.cand c := by
  unfold Board.cand
  simp [Board.elim, h]

theorem cand_elim_subset (bd : Board) (cell val c : Nat) :
    (bd.elim cell val).cand c ⊆ bd.cand c := by
  by_cases h : c = cell
  · subst h
    rw [cand_elim_self]
    exact Finset.erase_subset _ _
  · rw [cand_elim_other val h]

theorem unknown_mark_of_ne {bd : Board} {cell c : Nat} (val : Nat) (h : c ≠ cell) :
    (bd.mark cell val).unknown c =
      if c ∈ neighbors bd.order cell then (bd.unknown c).map (fun s => s.erase val)
      else bd.unknown c := by
  simp [Board.mark, h]

/-! ## Good boards: the class invariants maintained by the `board` API -/

/-- No value fixed by a known cell survives as a candidate of a distinct cell
sharing a division (the invariant `mark` maintains by eliminating). -/
def Consistent (bd : Board) : Prop :=
  ∀ c0 v0, bd.known c0 = some v0 → ∀ c ∈ neighbors bd.order c0, c ≠ c0 →
    v0 ∉ bd.cand c

/-- Candidate sets live in the value range `[1, n]` (true of every board
derived from `blank`). -/
def CandRange (bd : Board) : Prop :=
  ∀ c s, bd.unknown c = some s → s ⊆ Finset.Icc 1 (bd.order ^ 2)

/-- The working invariants of boards produced by the library's own
operations: the known/unknown partition, known-vs-candidate consistency, and
in-range candidates. -/
def GoodBoard (bd : Board) : Prop :=
  Partition bd ∧ Consistent bd ∧ CandRange bd

theorem known_none_of_unknown {bd : Board} (hp : Partition bd) {c : Nat}
    {s : Finset Nat} (hu : bd.unknown c = some s) : bd.known c = none := by
  have h := (hp c).1
  rw [hu] at h
  simp only [Option.isSome_some, and_true] at h
  exact Option.not_isSome_iff_eq_none.mp h

theorem unknown_lt_ncells {bd : Board} (hp : Partition bd) {c : Nat}
    {s : Finset Nat} (hu : bd.unknown c = some s) : c < bd.ncells := by
  have h := (hp c).2
  rw [hu] at h
  simp only [Option.isSome_some, or_true] at h
  exact h.mp trivial

theorem consistent_mark {bd : Board} (h : Consistent bd) (cell val : Nat) :
    Consistent (bd.mark cell val) := by
  intro c0 v0 hk0 c hc hne
  by_cases h0 : c0 = cell
  · subst h0
    rw [known_mark_self] at hk0
    injection hk0 with hv
    have hc2 : c ∈ neighbors bd.order c0 := hc
    rw [← hv, cand_mark_neighbor val hne hc2]
    exact Finset.not_mem_erase _ _
  · rw [known_mark_other val h0] at hk0
    have hold := h c0 v0 hk0 c hc hne
    intro hmem
    exact hold (cand_mark_subset bd cell val c hmem)

theorem consistent_elim {bd : Board} (h : Consistent bd) (cell val : Nat) :
    Consistent (bd.elim cell val) := by
  intro c0 v0 hk0 c hc hne
  rw [known_elim] at hk0
  have hold := h c0 v0 hk0 c hc hne
  intro hmem
  exact hold (cand_elim_subset bd cell val c hmem)

theorem candRange_mark {bd : Board} (h : CandRange bd) (cell val : Nat) :
    CandRange (bd.mark cell val) := by
  intro c s hu
  by_cases h1 : c = cell
  · subst h1
    rw [unknown_mark_self] at hu
    cases hu
  · rw [unknown_mark_of_ne val h1] at hu
    by_cases h2 : c ∈ neighbors bd.order cell
    · rw [if_pos h2] at hu
      rcases hu2 : bd.unknown c with _ | s0
      · rw [hu2] at hu
        cases hu
      · rw [hu2] at hu
        simp only [Option.map_some', Option.some_inj] at hu
        subst hu
        exact fun v hv => h c s0 hu2 (Finset.mem_of_mem_erase hv)
    · rw [if_neg h2] at hu
      exact h c s hu

theorem candRange_elim {bd : Board} (h : CandRange bd) (cell val : Nat) :
    CandRange (bd.elim cell val) := by
  intro c s hu
  by_cases h1 : c = cell
  · subst h1
    simp only [Board.elim, eq_self_iff_true, if_true] at hu
    rcases hu2 : bd.unknown c with _ | s0
    · rw [hu2] at hu
      cases hu
    · rw [hu2] at hu
      simp only [Option.map_some', Option.some_inj] at hu
      subst hu
      exact fun v hv => h c s0 hu2 (Finset.mem_of_mem_erase hv)
  · simp only [Board.elim, if_neg h1] at hu
    exact h c s hu

theorem goodBoard_mark {bd : Board} (h : GoodBoard bd) {cell : Nat} (val : Nat)
    (hc : cell < bd.ncells) : GoodBoard (bd.mark cell val) :=
  ⟨partition_mark h.1 val hc, consistent_mark h.2.1 cell val, candRange_mark h.2.2 cell val⟩

theorem goodBoard_elim {bd : Board} (h : GoodBoard bd) (cell val : Nat) :
    GoodBoard (bd.elim cell val) :=
  ⟨partition_elim h.1 cell val, consistent_elim h.2.1 cell val, candRange_elim h.2.2 cell val⟩

theorem goodBoard_blank (order : Nat) : GoodBoard (blank order) := by
  refine ⟨partition_blank order, ?_, ?_⟩
  · intro c0 v0 hk0
    simp [blank] at hk0
  · intro c s hu
    simp only [blank] at hu
    by_cases hc : c < (order ^ 2) ^ 2
    · rw [if_pos hc] at hu
      injection hu with hu
      subst hu
      exact Finset.Subset.refl _
    · rw [if_neg hc] at hu
      cases hu

end Sudoku

namespace Sudoku

/-! ## Admissible complete assignments -/

/-- `f` extends the known cells of `bd`. -/
def Extends (bd : Board) (f : Nat → Nat) : Prop :=
  ∀ c v, bd.known c = some v → f c = v

/-- `f` assigns every unknown cell a value from its candidate set. -/
def RespectsCands (bd : Board) (f : Nat → Nat) : Prop :=
  ∀ c s, bd.unknown c = some s → f c ∈ s

/-- Within every division, `f` assigns pairwise distinct values. -/
def DivInj (order : Nat) (f : Nat → Nat) : Prop :=
  ∀ d, d < 3 * order ^ 2 → ∀ c ∈ div2cells order d, ∀ c2 ∈ div2cells order d,
    c ≠ c2 → f c ≠ f c2

/-- Within every division, `f` attains every value of `[1, n]`. -/
def DivOnto (order : Nat) (f : Nat → Nat) : Prop :=
  ∀ d, d < 3 * order ^ 2 → ∀ v ∈ Finset.Icc 1 (order ^ 2),
    ∃ c ∈ div2cells order d, f c = v

/-- A complete assignment compatible with board `bd`: it extends the knowns,
respects every candidate set, and realises every division's permutation
constraint. -/
def Admissible (bd : Board) (f : Nat → Nat) : Prop :=
  Extends bd f ∧ RespectsCands bd f ∧ DivInj bd.order f ∧ DivOnto bd.order f

theorem cell2divs_lt_3n {order c d : Nat} (hc : c < (order ^ 2) ^ 2)
    (hd : d ∈ cell2divs order c) : d < 3 * order ^ 2 := by
  have hrow := cell_row_lt hc
  have hcol := cell_col_lt hc
  have hbox := boxOf_lt hrow hcol
  rw [mem_cell2divs] at hd
  generalize order ^ 2 = n at *
  omega

theorem mem_neighbors {order c0 c : Nat} :
    c ∈ neighbors order c0 ↔ ∃ d ∈ cell2divs order c0, c ∈ div2cells order d := by
  simp [neighbors]

/-- Cells sharing a division are mutual neighbors. -/
theorem neighbor_of_shared_div {order c0 c d : Nat} (h0 : c0 ∈ div2cells order d)
    (h : c ∈ div2cells order d) : c ∈ neighbors order c0 := by
  rw [mem_neighbors]
  exact ⟨d, (mem_div2cells.mp h0).2, h⟩

/-- Marking a cell with a value forced for every admissible assignment
neither creates nor destroys admissible assignments. -/
theorem admissible_mark_iff {bd : Board} {cell val : Nat} {s : Finset Nat}
    (hcell : cell < bd.ncells) (hk : bd.known cell = none)
    (hu : bd.unknown cell = some s) (hv : val ∈ s)
    (hforced : ∀ g, Admissible bd g → g cell = val) (f : Nat → Nat) :
    Admissible (bd.mark cell val) f ↔ Admissible bd f := by
  constructor
  · rintro ⟨hext, hresp, hinj, honto⟩
    have hfcell : f cell = val := hext cell val (known_mark_self bd cell val)
    refine ⟨?_, ?_, hinj, honto⟩
    · intro c v hkc
      rcases eq_or_ne c cell with rfl | hne
      · rw [hk] at hkc
        cases hkc
      · exact hext c v (by rw [known_mark_other val hne]; exact hkc)
    · intro c s2 hu2
      rcases eq_or_ne c cell with rfl | hne
      · rw [hu] at hu2
        injection hu2 with h2
        subst h2
        rw [hfcell]
        exact hv
      · by_cases hn : c ∈ neighbors bd.order cell
        · have h3 : (bd.mark cell val).unknown c = some (s2.erase val) := by
            rw [unknown_mark_of_ne val hne, if_pos hn, hu2]
            rfl
          exact Finset.mem_of_mem_erase (hresp c (s2.erase val) h3)
        · have h3 : (bd.mark cell val).unknown c = some s2 := by
            rw [unknown_mark_of_ne val hne, if_neg hn]
            exact hu2
          exact hresp c s2 h3
  · rintro ⟨hext, hresp, hinj, honto⟩
    have hfcell : f cell = val := hforced f ⟨hext, hresp, hinj, honto⟩
    refine ⟨?_, ?_, hinj, honto⟩
    · intro c v hkc
      rcases eq_or_ne c cell with rfl | hne
      · rw [known_mark_self] at hkc
        injection hkc with h2
        rw [← h2]
        exact hfcell
      · rw [known_mark_other val hne] at hkc
        exact hext c v hkc
    · intro c s2 hu2
      rcases eq_or_ne c cell with rfl | hne
      · rw [unknown_mark_self] at hu2
        cases hu2
      · rw [unknown_mark_of_ne val hne] at hu2
        by_cases hn : c ∈ neighbors bd.order cell
        · rw [if_pos hn] at hu2
          rcases hu3 : bd.unknown c with _ | s3
          · rw [hu3] at hu2
            cases hu2
          · rw [hu3] at hu2
            injection hu2 with h2
            subst h2
            refine Finset.mem_erase_of_ne_of_mem ?_ (hresp c s3 hu3)
            -- f c ≠ val since c and cell share a division and f is injective there
            obtain ⟨d, hd1, hd2⟩ := mem_neighbors.mp hn
            have hcelld : cell ∈ div2cells bd.order d := mem_div2cells.mpr ⟨hcell, hd1⟩
            have hdlt : d < 3 * bd.order ^ 2 := cell2divs_lt_3n hcell hd1
            rw [← hfcell]
            exact hinj d hdlt c hd2 cell hcelld hne
        · rw [if_neg hn] at hu2
          exact hresp c s2 hu2

/-- Eliminating a candidate ruled out for every admissible assignment
neither creates nor destroys admissible assignments. -/
theorem admissible_elim_iff {bd : Board} {cell val : Nat}
    (hjust : ∀ g, Admissible bd g → g cell ≠ val) (f : Nat → Nat) :
    Admissible (bd.elim cell val) f ↔ Admissible bd f := by
  constructor
  · rintro ⟨hext, hresp, hinj, honto⟩
    refine ⟨hext, ?_, hinj, honto⟩
    · intro c s2 hu2
      rcases eq_or_ne c cell with rfl | hne
      · have := hresp c (s2.erase val)
          (by simp only [Board.elim, eq_self_iff_true, if_true, hu2]; rfl)
        exact Finset.mem_of_mem_erase this
      · exact hresp c s2 (by simp only [Board.elim, if_neg hne]; exact hu2)
  · rintro ⟨hext, hresp, hinj, honto⟩
    have hne_val : f cell ≠ val := hjust f ⟨hext, hresp, hinj, honto⟩
    refine ⟨hext, ?_, hinj, honto⟩
    · intro c s2 hu2
      rcases eq_or_ne c cell with rfl | hne
      · simp only [Board.elim, eq_self_iff_true, if_true] at hu2
        rcases hu3 : bd.unknown c with _ | s3
        · rw [hu3] at hu2
          cases hu2
        · rw [hu3] at hu2
          injection hu2 with h2
          subst h2
          exact Finset.mem_erase_of_ne_of_mem hne_val (hresp c s3 hu3)
      · simp only [Board.elim, if_neg hne] at hu2
        exact hresp c s2 hu2

end Sudoku

namespace Sudoku

/-! ## Justification of the deduction rules on good boards -/

/-- Naked single: a singleton candidate set forces the value. -/
theorem naked_single_forced {bd : Board} {cell : Nat} {s : Finset Nat}
    (hu : bd.unknown cell = some s) (h1 : s.card = 1) :
    ∀ g, Admissible bd g → g cell = s.sup id := by
  intro g hg
  have := hg.2.1 cell s hu
  rw [card_one_eq_sup_singleton h1] at this
  exact Finset.mem_singleton.mp this

/-- Hidden single: if `cell` is the unique unknown cell of division `d`
carrying candidate `v`, then (on a good board) every admissible assignment
maps `cell` to `v`. -/
theorem hidden_single_forced {S : Board} (hS : GoodBoard S) {d v cell : Nat}
    (hd : d < 3 * S.order ^ 2)
    (hmem : cell ∈ placements S d v)
    (huniq : ∀ c2 ∈ placements S d v, c2 = cell) :
    ∀ g, Admissible S g → g cell = v := by
  intro g hg
  obtain ⟨hext, hresp, hinj, honto⟩ := hg
  obtain ⟨hcd, hvc⟩ := mem_placements.mp hmem
  obtain ⟨s, hus, hvs⟩ := mem_cand.mp hvc
  have hv_icc : v ∈ Finset.Icc 1 (S.order ^ 2) := hS.2.2 _ _ hus hvs
  obtain ⟨c0, hc0d, hgc0⟩ := honto d hd v hv_icc
  rcases hk : S.known c0 with _ | w
  · -- c0 unknown (by the partition), so v is among its candidates
    have hc0lt := (mem_div2cells.mp hc0d).1
    have hpart := (hS.1 c0).2
    rcases hu0 : S.unknown c0 with _ | s0
    · rw [hk, hu0] at hpart
      simp only [Option.isSome_none, false_or] at hpart
      exact absurd (hpart.mpr hc0lt) (by simp)
    · have hgc0mem : g c0 ∈ s0 := hresp c0 s0 hu0
      have hvc0 : v ∈ S.cand c0 := by
        rw [Board.cand, hu0]
        rw [hgc0] at hgc0mem
        exact hgc0mem
      have : c0 ∈ placements S d v := mem_placements.mpr ⟨hc0d, hvc0⟩
      rw [huniq c0 this] at hgc0
      exact hgc0
  · -- c0 known with value w = v: contradicts consistency with cell
    have hw : w = v := by rw [hext c0 w hk] at hgc0; exact hgc0
    subst hw
    have hne : cell ≠ c0 := by
      intro he
      have h1 : S.known cell = none := known_none_of_unknown hS.1 hus
      rw [he, hk] at h1
      cases h1
    have hnb : cell ∈ neighbors S.order c0 :=
      neighbor_of_shared_div hc0d hcd
    exact absurd hvc (hS.2.1 c0 w hk cell hnb hne)

theorem mem_commonDivs {order : Nat} {cells : Finset Nat} {d : Nat}
    (hne : cells.Nonempty) :
    d ∈ commonDivs order cells ↔ ∀ c ∈ cells, d ∈ cell2divs order c := by
  unfold commonDivs
  rw [Finset.mem_filter]
  constructor
  · exact fun h => h.2
  · intro h
    exact ⟨h (cells.sup id) (sup_id_mem hne), h⟩

/-- Locked-candidate exclusion: if `cells` is the (nonempty) set of unknown
cells of `div0` carrying candidate `v`, and `dv` is a division common to all
of them, then every admissible assignment avoids `v` outside `cells` within
`dv`. -/
theorem exclusion_forced {S : Board} (hS : GoodBoard S) {div0 v c dv : Nat}
    {cells : Finset Nat}
    (hd0 : div0 < 3 * S.order ^ 2) (hcells : cells = placements S div0 v)
    (hne : cells.Nonempty) (hdv : dv ∈ commonDivs S.order cells)
    (hc : c ∈ div2cells S.order dv) (hnc : c ∉ cells) :
    ∀ g, Admissible S g → g c ≠ v := by
  intro g hg
  obtain ⟨hext, hresp, hinj, honto⟩ := hg
  obtain ⟨cm, hcm⟩ := hne
  have hcm' := hcm
  rw [hcells, mem_placements] at hcm'
  obtain ⟨hcmd, hvcm⟩ := hcm'
  obtain ⟨sm, husm, hvsm⟩ := mem_cand.mp hvcm
  have hv_icc : v ∈ Finset.Icc 1 (S.order ^ 2) := hS.2.2 _ _ husm hvsm
  obtain ⟨c0, hc0d, hgc0⟩ := honto div0 hd0 v hv_icc
  have hc0lt := (mem_div2cells.mp hc0d).1
  rcases hk : S.known c0 with _ | w
  · -- c0 unknown, so c0 ∈ cells, so c0 ∈ dv; injectivity on dv separates c
    have hpart := (hS.1 c0).2
    rcases hu0 : S.unknown c0 with _ | s0
    · rw [hk, hu0] at hpart
      simp only [Option.isSome_none, false_or] at hpart
      exact absurd (hpart.mpr hc0lt) (by simp)
    · have hgc0mem : g c0 ∈ s0 := hresp c0 s0 hu0
      have hvc0 : v ∈ S.cand c0 := by
        rw [Board.cand, hu0]
        rw [hgc0] at hgc0mem
        exact hgc0mem
      have hc0cells : c0 ∈ cells := by
        rw [hcells]
        exact mem_placements.mpr ⟨hc0d, hvc0⟩
      have hd_c0 : dv ∈ cell2divs S.order c0 := (mem_commonDivs ⟨cm, hcm⟩).mp hdv c0 hc0cells
      have hc0dv : c0 ∈ div2cells S.order dv := mem_div2cells.mpr ⟨hc0lt, hd_c0⟩
      have hdvlt : dv < 3 * S.order ^ 2 := cell2divs_lt_3n hc0lt hd_c0
      have hnecc : c ≠ c0 := fun he => hnc (he ▸ hc0cells)
      intro hgc
      exact hinj dv hdvlt c hc c0 hc0dv hnecc (by rw [hgc, hgc0])
  · -- c0 known with value v: contradicts consistency with cm
    have hw : w = v := by rw [hext c0 w hk] at hgc0; exact hgc0
    subst hw
    have hnecm : cm ≠ c0 := by
      intro he
      have h1 : S.known cm = none := known_none_of_unknown hS.1 husm
      rw [he, hk] at h1
      cases h1
    have hnb : cm ∈ neighbors S.order c0 := neighbor_of_shared_div hc0d hcmd
    exact absurd hvcm (hS.2.1 c0 w hk cm hnb hnecm)

end Sudoku

namespace Sudoku

/-! ## Soundness of the rule passes -/

/-- Invariant for the rule folds: order preserved, the board keeps the class
invariants, and the set of admissible assignments is unchanged. -/
def SoundInv (bd0 : Board) (acc : Bool × Board) : Prop :=
  acc.2.order = bd0.order ∧ GoodBoard acc.2 ∧
    ∀ g, Admissible acc.2 g ↔ Admissible bd0 g

theorem soundInv_mark {bd0 : Board} {acc : Bool × Board} (h : SoundInv bd0 acc)
    {cell val : Nat} {s : Finset Nat} (hu : acc.2.unknown cell = some s)
    (hv : val ∈ s) (hforced : ∀ g, Admissible acc.2 g → g cell = val)
    (b : Bool) : SoundInv bd0 (b, acc.2.mark cell val) := by
  have hcell : cell < acc.2.ncells := unknown_lt_ncells h.2.1.1 hu
  have hk : acc.2.known cell = none := known_none_of_unknown h.2.1.1 hu
  refine ⟨h.1, goodBoard_mark h.2.1 val hcell, fun g => ?_⟩
  exact (admissible_mark_iff hcell hk hu hv hforced g).trans (h.2.2 g)

theorem soundInv_elim {bd0 : Board} {acc : Bool × Board} (h : SoundInv bd0 acc)
    {cell val : Nat} (hjust : ∀ g, Admissible acc.2 g → g cell ≠ val)
    (b : Bool) : SoundInv bd0 (b, acc.2.elim cell val) := by
  refine ⟨h.1, goodBoard_elim h.2.1 cell val, fun g => ?_⟩
  exact (admissible_elim_iff hjust g).trans (h.2.2 g)

theorem msv_sound {bd0 : Board} (h : GoodBoard bd0) :
    SoundInv bd0 (mark_single_vals bd0) := by
  unfold mark_single_vals
  apply foldl_inv _ _ _ ⟨rfl, h, fun g => Iff.rfl⟩
  intro a c _ ha
  rcases hu : a.2.unknown c with _ | s
  · simpa [hu] using ha
  · simp only [hu]
    by_cases h1 : s.card = 1
    · simp only [if_pos h1]
      have hsup : s.sup id ∈ s := sup_id_mem (Finset.card_pos.mp (by omega))
      exact soundInv_mark ha hu hsup (naked_single_forced hu h1) true
    · simpa [h1] using ha

theorem mscDiv_sound {bd0 : Board} {acc : Bool × Board} {d : Nat}
    (hd : d < 3 * bd0.order ^ 2) (h : SoundInv bd0 acc) :
    SoundInv bd0 (mscDiv acc d) := by
  simp only [mscDiv]
  apply foldl_inv _ _ _ h
  intro a v _ ha
  by_cases h1 : (placements acc.2 d v).card = 1
  · simp only [if_pos h1]
    by_cases h2 : v ∈ a.2.cand ((placements acc.2 d v).sup id)
    · simp only [if_pos h2]
      obtain ⟨s, hu, hvs⟩ := mem_cand.mp h2
      have hmemp : (placements acc.2 d v).sup id ∈ placements acc.2 d v :=
        sup_id_mem (Finset.card_pos.mp (by omega))
      have huniq : ∀ c2 ∈ placements acc.2 d v, c2 = (placements acc.2 d v).sup id := by
        intro c2 hc2
        have he := card_one_eq_sup_singleton h1
        rw [he] at hc2
        exact Finset.mem_singleton.mp hc2
      have hd2 : d < 3 * acc.2.order ^ 2 := by rw [h.1]; exact hd
      have hforced0 := hidden_single_forced h.2.1 hd2 hmemp huniq
      have hforced : ∀ g, Admissible a.2 g → g ((placements acc.2 d v).sup id) = v :=
        fun g hg => hforced0 g ((h.2.2 g).mpr ((ha.2.2 g).mp hg))
      exact soundInv_mark ha hu hvs hforced true
    · simpa [h2] using ha
  · simpa [h1] using ha

theorem msc_sound {bd0 : Board} (h : GoodBoard bd0) :
    SoundInv bd0 (mark_single_cells bd0) := by
  unfold mark_single_cells
  apply foldl_inv _ _ _ ⟨rfl, h, fun g => Iff.rfl⟩
  intro a d hd ha
  exact mscDiv_sound (List.mem_range.mp hd) ha

theorem mem_divCandUnion {bd : Board} {d v : Nat} :
    v ∈ divCandUnion bd d ↔ ∃ c ∈ div2cells bd.order d, v ∈ bd.cand c := by
  simp [divCandUnion]

theorem mexDiv_sound {bd0 : Board} {acc : Bool × Board} {div0 : Nat}
    (hd0 : div0 < 3 * bd0.order ^ 2) (h : SoundInv bd0 acc) :
    SoundInv bd0 (mexDiv acc div0) := by
  unfold mexDiv
  apply foldl_inv _ _ _ h
  intro a1 v hvmem ha1
  have hvne : (placements acc.2 div0 v).Nonempty := by
    obtain ⟨c, hc, hvc⟩ := mem_divCandUnion.mp (mem_ascList.mp hvmem)
    exact ⟨c, mem_placements.mpr ⟨hc, hvc⟩⟩
  unfold mexValStep
  apply foldl_inv _ _ _ ha1
  intro a2 dv hdvmem ha2
  have hdv : dv ∈ commonDivs acc.2.order (placements acc.2 div0 v) :=
    (Finset.mem_sdiff.mp (mem_ascList.mp hdvmem)).1
  apply foldl_inv _ _ _ ha2
  intro a3 c hcmem ha3
  have hcl := mem_mexCellList.mp hcmem
  unfold mexCellStep
  by_cases h1 : v ∈ a3.2.cand c
  · simp only [if_pos h1]
    have hd0' : div0 < 3 * acc.2.order ^ 2 := by rw [h.1]; exact hd0
    have hjust0 := exclusion_forced h.2.1 hd0' rfl hvne hdv hcl.1 hcl.2.1
    have hjust : ∀ g, Admissible a3.2 g → g c ≠ v :=
      fun g hg => hjust0 g ((h.2.2 g).mpr ((ha3.2.2 g).mp hg))
    exact soundInv_elim ha3 hjust true
  · simpa [h1] using ha3

theorem mex_sound {bd0 : Board} (h : GoodBoard bd0) :
    SoundInv bd0 (mark_excluded bd0) := by
  unfold mark_excluded
  apply foldl_inv _ _ _ ⟨rfl, h, fun g => Iff.rfl⟩
  intro a d hd ha
  exact mexDiv_sound (List.mem_range.mp hd) ha

theorem stepOnce_sound {bd : Board} (h : GoodBoard bd) :
    SoundInv bd (stepOnce bd) := by
  simp only [stepOnce]
  rcases hb1 : (mark_single_vals bd).1 with _ | _
  · simp only [Bool.false_eq_true, if_false]
    rw [(msv_inv bd).2.2 hb1]
    rcases hb2 : (mark_single_cells bd).1 with _ | _
    · simp only [Bool.false_eq_true, if_false]
      rw [(msc_inv bd).2.2 hb2]
      exact mex_sound h
    · simp only [if_true]
      exact msc_sound h
  · simp only [if_true]
    exact msv_sound h

/-- `mark_forced` keeps the class invariants and preserves exactly the set of
admissible assignments. -/
theorem mark_forced_sound {bd : Board} (h : GoodBoard bd) :
    GoodBoard (mark_forced bd) ∧ (mark_forced bd).order = bd.order ∧
      (∀ g, Admissible (mark_forced bd) g ↔ Admissible bd g) := by
  unfold mark_forced
  generalize bd.measure + 1 = fuel
  induction fuel generalizing bd with
  | zero => exact ⟨h, rfl, fun g => Iff.rfl⟩
  | succ f ih =>
      rcases hb : (stepOnce bd).1 with _ | _
      · have he : mfLoop (f + 1) bd = bd := by
          rw [mfLoop_succ, hb]
          simp
        rw [he]
        exact ⟨h, rfl, fun g => Iff.rfl⟩
      · have he : mfLoop (f + 1) bd = mfLoop f (stepOnce bd).2 := by
          rw [mfLoop_succ, hb]
          simp
        rw [he]
        have hs := stepOnce_sound h
        obtain ⟨ih1, ih2, ih3⟩ := ih hs.2.1
        exact ⟨ih1, by rw [ih2, hs.1], fun g => (ih3 g).trans (hs.2.2 g)⟩

end Sudoku

namespace Sudoku

/-! ## C10: solution-set preservation by `mark_forced` -/

/-- Establishing `Admissible` for a concrete board via decidable bounded
checks (the out-of-range cells are covered by the partition invariant). -/
theorem admissible_of_checks {bd : Board} (hp : Partition bd) (f : Nat → Nat)
    (h1 : ∀ c, c < bd.ncells → (bd.known c).getD (f c) = f c)
    (h2 : ∀ c, c < bd.ncells →
      ((bd.unknown c).map (fun s => decide (f c ∈ s))).getD true = true)
    (h3 : DivInj bd.order f) (h4 : DivOnto bd.order f) : Admissible bd f := by
  refine ⟨?_, ?_, h3, h4⟩
  · intro c v hk
    have hc : c < bd.ncells := by
      have hu := (hp c).2
      rw [hk] at hu
      exact hu.mp (Or.inl rfl)
    have hg := h1 c hc
    rw [hk] at hg
    simpa using hg.symm
  · intro c s hu
    have hc : c < bd.ncells := unknown_lt_ncells hp hu
    have hg := h2 c hc
    rw [hu] at hg
    simpa using hg

theorem divInj_of_check {order : Nat} (f : Nat → Nat)
    (h : ∀ d ∈ Finset.range (3 * order ^ 2), ∀ c ∈ div2cells order d,
      ∀ c2 ∈ div2cells order d, c ≠ c2 → f c ≠ f c2) : DivInj order f :=
  fun d hd => h d (Finset.mem_range.mpr hd)

theorem divOnto_of_check {order : Nat} (f : Nat → Nat)
    (h : ∀ d ∈ Finset.range (3 * order ^ 2), ∀ v ∈ Finset.Icc 1 (order ^ 2),
      ∃ c ∈ div2cells order d, f c = v) : DivOnto order f :=
  fun d hd => h d (Finset.mem_range.mpr hd)

/-- The board of the C10 counterexample: cell 0 is known with value 1, its
row neighbor cell 1 still carries candidate 1 (violating the consistency
invariant), cells 2 and 3 have been narrowed to singletons, and every other
cell is untouched. -/
def cexB : Board :=
  { order := 2
    known := fun c => if c = 0 then some 1 else none
    unknown := fun c =>
      if c = 0 then none
      else if c = 1 then some {1, 2}
      else if c = 2 then some {3}
      else if c = 3 then some {4}
      else if c < 16 then some {1, 2, 3, 4} else none }

/-- The assignment of the C10 counterexample: a fully valid order-2 grid
extending `cexB`'s knowns and candidate sets, with value 2 at cell 1. -/
def cexF : Nat → Nat := fun c =>
  [1, 2, 3, 4, 3, 4, 1, 2, 2, 1, 4, 3, 4, 3, 2, 1].getD c 0

theorem partition_cexB : Partition cexB := by
  intro c
  constructor
  · by_cases h0 : c = 0 <;> simp [cexB, h0]
  · show _ ↔ c < (2 ^ 2) ^ 2
    by_cases h0 : c = 0
    · simp [cexB, h0]
    · by_cases h1 : c = 1
      · simp [cexB, h0, h1]
      · by_cases h2 : c = 2
        · simp [cexB, h0, h1, h2]
        · by_cases h3 : c = 3
          · simp [cexB, h0, h1, h2, h3]
          · by_cases h16 : c < 16
            · simp [cexB, h0, h1, h2, h3, h16]
            · simp [cexB, h0, h1, h2, h3, h16]

set_option maxRecDepth 40000 in
/-- Counterexample to C10 as stated (for *every* board): on `cexB`, which
violates the known/candidate consistency invariant, the hidden-single rule
fires unsoundly: the complete valid assignment `cexF` is admissible for
`cexB`, yet `mark_forced cexB` marks cell 1 with 1 while `cexF` assigns 2,
so `cexF` is no longer admissible — `mark_forced` destroyed a solution. -/
theorem C10_counterexample :
    Admissible cexB cexF ∧ ¬ Admissible (mark_forced cexB) cexF := by
  constructor
  · exact admissible_of_checks partition_cexB cexF (by decide) (by decide)
      (@divInj_of_check 2 cexF (by decide))
      (@divOnto_of_check 2 cexF (by decide))
  · intro hadm
    have h1 : (mark_forced cexB).known 1 = some 1 := by decide
    have h2 := hadm.1 1 1 h1
    simp [cexF] at h2

/-- C10 amended: for boards satisfying the invariants the `board` API
maintains (known/unknown partition, known-vs-candidate consistency, in-range
candidates), `mark_forced` preserves the set of admissible complete
assignments exactly: an assignment extending the knowns, drawing each
unknown cell's value from its candidate set and satisfying every division's
permutation constraint is admissible for `mark_forced(b)` iff it is for `b`.
In particular naked single, hidden single and exclusion are sound
deductions on such boards. -/
theorem C10_mark_forced_preserves_assignments (bd : Board) (hg : GoodBoard bd) :
    ∀ f, Admissible (mark_forced bd) f ↔ Admissible bd f :=
  (mark_forced_sound hg).2.2

/-- Witness for `C10_mark_forced_preserves_assignments` at the blank order-2
board. -/
theorem C10_mark_forced_preserves_assignments_witness :
    GoodBoard (blank 2) ∧
      ∀ f, Admissible (mark_forced (blank 2)) f ↔ Admissible (blank 2) f :=
  ⟨goodBoard_blank 2, C10_mark_forced_preserves_assignments (blank 2) (goodBoard_blank 2)⟩

end Sudoku

namespace Sudoku

/-! ## C8: the concrete order-2 propagation scenario -/

theorem goodBoard_foldl_marks {order : Nat} (l : List (Nat × Nat)) (bd : Board)
    (hbd : GoodBoard bd) (hord : bd.order = order)
    (h : ∀ m ∈ l, m.1 < (order ^ 2) ^ 2) :
    GoodBoard (l.foldl (fun b m => b.mark m.1 m.2) bd) ∧
      (l.foldl (fun b m => b.mark m.1 m.2) bd).order = order := by
  induction l generalizing bd with
  | nil => exact ⟨hbd, hord⟩
  | cons m ms ih =>
      apply ih
      · apply goodBoard_mark hbd
        show m.1 < (bd.order ^ 2) ^ 2
        rw [hord]
        exact h m (List.mem_cons_self m ms)
      · rw [mark_order, hord]
      · exact fun x hx => h x (List.mem_cons_of_mem m hx)

theorem goodBoard_marked_up {order : Nat} {l : List (Nat × Nat)}
    (h : ∀ m ∈ l, m.1 < (order ^ 2) ^ 2) : GoodBoard (marked_up order l) :=
  (goodBoard_foldl_marks l (blank order) (goodBoard_blank order) rfl h).1

/-- The board of the spec's concrete scenario: order 2, knowns
`{0:1, 1:2, 4:3, 5:4, 2:3, 3:4}`. -/
def scenarioBoard : Board :=
  marked_up 2 [(0, 1), (1, 2), (4, 3), (5, 4), (2, 3), (3, 4)]

/-- First completion of the scenario clues: rows 1234 / 3412 / 2143 / 4321. -/
def solA : Nat → Nat := fun c =>
  [1, 2, 3, 4, 3, 4, 1, 2, 2, 1, 4, 3, 4, 3, 2, 1].getD c 0

/-- Second completion of the scenario clues: rows 1234 / 3412 / 4321 / 2143. -/
def solB : Nat → Nat := fun c =>
  [1, 2, 3, 4, 3, 4, 1, 2, 4, 3, 2, 1, 2, 1, 4, 3].getD c 0

set_option maxRecDepth 40000 in
/-- Counterexample to C8: on the scenario board, `mark_forced` alone does
*not* reach a solved state — `issolved` is `false`. -/
theorem C8_counterexample : issolved (mark_forced scenarioBoard) = false := by
  decide

set_option maxRecDepth 40000 in
/-- C8 amended: the scenario board is not solvable by propagation, and its
premise of a unique solution with first row `1,2,3,4` is false.
`mark_forced` reaches a fixed point that leaves every known cell exactly as
marked (nothing is derived), `issolved` is `false`, and the clue set admits
two distinct admissible complete assignments (`solA`, `solB`, both with
first row `1,2,3,4`, differing at cell 8), so no sound deduction could
solve the board. -/
theorem C8_scenario_unsolvable_by_propagation :
    issolved (mark_forced scenarioBoard) = false ∧
      (∀ c, c < 16 → (mark_forced scenarioBoard).known c = scenarioBoard.known c) ∧
      Admissible scenarioBoard solA ∧ Admissible scenarioBoard solB ∧
      solA 8 ≠ solB 8 := by
  have hg : GoodBoard scenarioBoard := goodBoard_marked_up (by decide)
  refine ⟨by decide, by decide, ?_, ?_, by decide⟩
  · exact admissible_of_checks hg.1 solA (by decide) (by decide)
      (@divInj_of_check 2 solA (by decide))
      (@divOnto_of_check 2 solA (by decide))
  · exact admissible_of_checks hg.1 solB (by decide) (by decide)
      (@divInj_of_check 2 solB (by decide))
      (@divOnto_of_check 2 solB (by decide))

end Sudoku

namespace Sudoku

/-! ## C6: exact characterization of the locked-candidate pass -/

theorem mexInner_cand (v : Nat) (L : List Nat) (a : Bool × Board) (c : Nat) :
    ((L.foldl (mexCellStep v) a).2).cand c =
      if c ∈ L then (a.2.cand c).erase v else a.2.cand c := by
  induction L generalizing a with
  | nil => simp
  | cons x xs ih =>
      rw [List.foldl_cons, ih]
      by_cases hcx : c = x
      · subst hcx
        have f2 : (mexCellStep v a c).2.cand c = (a.2.cand c).erase v := by
          unfold mexCellStep
          by_cases hg : v ∈ a.2.cand c
          · simp only [if_pos hg]
            exact cand_elim_self a.2 c v
          · simp only [if_neg hg]
            exact (Finset.erase_eq_of_not_mem hg).symm
        rw [f2, Finset.erase_idem, ite_self, if_pos (List.mem_cons_self c xs)]
      · have f1 : (mexCellStep v a x).2.cand c = a.2.cand c := by
          unfold mexCellStep
          by_cases hg : v ∈ a.2.cand x
          · simp only [if_pos hg]
            exact cand_elim_other v hcx
          · simp only [if_neg hg]
        rw [f1]
        by_cases hmem : c ∈ xs
        · rw [if_pos hmem, if_pos (List.mem_cons_of_mem x hmem)]
        · rw [if_neg hmem, if_neg (by
            intro hc
            rcases List.mem_cons.mp hc with h | h
            · exact hcx h
            · exact hmem h)]

theorem mexValStep_cand (S : Board) (div0 : Nat) (a : Bool × Board) (v c : Nat) :
    ((mexValStep S div0 a v).2).cand c =
      if ∃ dv ∈ ascList (commonDivs S.order (placements S div0 v) \ {div0}),
          c ∈ mexCellList S (placements S div0 v) dv
      then (a.2.cand c).erase v else a.2.cand c := by
  unfold mexValStep
  generalize ascList (commonDivs S.order (placements S div0 v) \ {div0}) = DL
  induction DL generalizing a with
  | nil => simp
  | cons dv dvs ih =>
      rw [List.foldl_cons, ih, mexInner_cand]
      by_cases h1 : c ∈ mexCellList S (placements S div0 v) dv
      · rw [if_pos h1]
        by_cases h2 : ∃ dv2 ∈ dvs, c ∈ mexCellList S (placements S div0 v) dv2
        · rw [if_pos h2, Finset.erase_idem,
            if_pos ⟨dv, List.mem_cons_self dv dvs, h1⟩]
        · rw [if_neg h2, if_pos ⟨dv, List.mem_cons_self dv dvs, h1⟩]
      · rw [if_neg h1]
        by_cases h2 : ∃ dv2 ∈ dvs, c ∈ mexCellList S (placements S div0 v) dv2
        · obtain ⟨d2, hd2, hc2⟩ := h2
          rw [if_pos ⟨d2, hd2, hc2⟩, if_pos ⟨d2, List.mem_cons_of_mem dv hd2, hc2⟩]
        · rw [if_neg h2, if_neg (by
            rintro ⟨d2, hd2, hc2⟩
            rcases List.mem_cons.mp hd2 with h | h
            · exact h1 (h ▸ hc2)
            · exact h2 ⟨d2, h, hc2⟩)]

theorem mexVals_cand (S : Board) (div0 : Nat) (VL : List Nat) (a : Bool × Board) (c : Nat) :
    ((VL.foldl (mexValStep S div0) a).2).cand c =
      (a.2.cand c).filter (fun w =>
        ¬(w ∈ VL ∧ ∃ dv ∈ ascList (commonDivs S.order (placements S div0 w) \ {div0}),
            c ∈ mexCellList S (placements S div0 w) dv)) := by
  induction VL generalizing a with
  | nil => simp
  | cons v vs ih =>
      rw [List.foldl_cons, ih, mexValStep_cand]
      ext w
      by_cases hcond : ∃ dv ∈ ascList (commonDivs S.order (placements S div0 v) \ {div0}),
          c ∈ mexCellList S (placements S div0 v) dv
      · rw [if_pos hcond]
        simp only [Finset.mem_filter, Finset.mem_erase, List.mem_cons]
        constructor
        · rintro ⟨⟨hwv, hwc⟩, hno⟩
          refine ⟨hwc, ?_⟩
          rintro ⟨hw | hw, hC⟩
          · exact hwv hw
          · exact hno ⟨hw, hC⟩
        · rintro ⟨hwc, hno⟩
          have hwv : w ≠ v := by
            rintro rfl
            exact hno ⟨Or.inl rfl, hcond⟩
          exact ⟨⟨hwv, hwc⟩, fun ⟨hw, hC⟩ => hno ⟨Or.inr hw, hC⟩⟩
      · rw [if_neg hcond]
        simp only [Finset.mem_filter, List.mem_cons]
        constructor
        · rintro ⟨hwc, hno⟩
          refine ⟨hwc, ?_⟩
          rintro ⟨hw | hw, hC⟩
          · exact hcond (hw ▸ hC)
          · exact hno ⟨hw, hC⟩
        · rintro ⟨hwc, hno⟩
          exact ⟨hwc, fun ⟨hw, hC⟩ => hno ⟨Or.inr hw, hC⟩⟩

theorem mexDiv_known (acc : Bool × Board) (div0 : Nat) :
    (mexDiv acc div0).2.known = acc.2.known ∧ (mexDiv acc div0).2.order = acc.2.order := by
  unfold mexDiv
  apply foldl_inv (P := fun x => x.2.known = acc.2.known ∧ x.2.order = acc.2.order)
    _ _ _ ⟨rfl, rfl⟩
  intro a v _ ha
  unfold mexValStep
  apply foldl_inv (P := fun x => x.2.known = acc.2.known ∧ x.2.order = acc.2.order) _ _ _ ha
  intro a2 dv _ ha2
  apply foldl_inv (P := fun x => x.2.known = acc.2.known ∧ x.2.order = acc.2.order) _ _ _ ha2
  intro a3 x _ ha3
  unfold mexCellStep
  by_cases hg : v ∈ a3.2.cand x
  · simp only [if_pos hg]
    exact ha3
  · simp only [if_neg hg]
    exact ha3

/-- The exact condition under which the `div0`-pass of `mark_excluded`
eliminates value `v` from cell `c` (all data read from the division-entry
snapshot `S`): `v` occurs among the candidates of `div0`'s unknown cells,
`c` is not known, `c` is outside the set `cells` of unknown `div0`-cells
carrying `v`, and `c` lies in *some* division common to all of `cells` other
than `div0` (there may be one or two such divisions). -/
def MexElim (S : Board) (div0 v c : Nat) : Prop :=
  v ∈ divCandUnion S div0 ∧ S.known c = none ∧ c ∉ placements S div0 v ∧
    ∃ dv ∈ commonDivs S.order (placements S div0 v) \ ({div0} : Finset Nat),
      c ∈ div2cells S.order dv

instance (S : Board) (div0 v c : Nat) : Decidable (MexElim S div0 v c) := by
  unfold MexElim
  infer_instance

/-- C6 amended: one `div0`-pass of `mark_excluded` leaves `known` untouched
and removes from each cell's candidate set exactly the values satisfying
`MexElim`: the elimination fires for *every* division in the intersection
minus `div0` (one or two of them, with no "exactly one" requirement), and
removes `v` from the cells of such a division outside the candidate-cell set
`cells` (not outside `div0`'s full cell set) that are not yet known. -/
theorem C6_mark_excluded_characterization (S : Board) (b : Bool) (div0 c : Nat) :
    (mexDiv (b, S) div0).2.known = S.known ∧
      (mexDiv (b, S) div0).2.cand c =
        (S.cand c).filter (fun v => ¬ MexElim S div0 v c) := by
  refine ⟨(mexDiv_known (b, S) div0).1, ?_⟩
  unfold mexDiv
  rw [mexVals_cand]
  apply Finset.filter_congr
  intro v _
  simp only [eq_iff_iff]
  constructor
  · intro h hme
    obtain ⟨h1, h2, h3, dv, hdv, hcdv⟩ := hme
    exact h ⟨mem_ascList.mpr h1, dv, mem_ascList.mpr hdv, mem_mexCellList.mpr ⟨hcdv, h3, h2⟩⟩
  · rintro hno ⟨hv, dv, hdv, hcl⟩
    obtain ⟨hcdv, hncells, hknone⟩ := mem_mexCellList.mp hcl
    exact hno ⟨mem_ascList.mp hv, hknone, hncells, dv, mem_ascList.mp hdv, hcdv⟩

/-- The spec's wording of the locked-candidate rule, for comparison with the
implementation: eliminate only when the intersection minus `div0` holds
*exactly one* division `D`, and then from the cells of `D` outside `div0`'s
full cell set that are not yet known. -/
def mexDivSpec (acc : Bool × Board) (div0 : Nat) : Bool × Board :=
  let bd := acc.2
  (ascList (divCandUnion bd div0)).foldl
    (fun acc1 v =>
      let cells := placements bd div0 v
      let I := commonDivs bd.order cells \ {div0}
      if I.card = 1 then
        ((div2cellsList bd.order (I.sup id)).filter
          (fun c => decide (c ∉ div2cells bd.order div0) && (bd.known c).isNone)).foldl
          (mexCellStep v) acc1
      else acc1)
    acc

/-- `mark_excluded` as the spec's claim describes it. -/
def mark_excluded_spec (bd : Board) : Bool × Board :=
  (List.range (3 * bd.order ^ 2)).foldl mexDivSpec (false, bd)

/-- An order-2 board on which the claim's description diverges from the
code: all 16 cells unknown, with candidate 1 removed from cells 1, 2, 3. -/
def cexC6 : Board :=
  { order := 2
    known := fun _ => none
    unknown := fun c =>
      if c < 16 then
        if c = 1 ∨ c = 2 ∨ c = 3 then some ({2, 3, 4} : Finset Nat)
        else some ({1, 2, 3, 4} : Finset Nat)
      else none }

set_option maxRecDepth 100000 in
/-- Counterexample to C6: in row 0 of `cexC6` the value 1 has a single
candidate cell (cell 0), so the intersection of its division set minus the
row yields *two* other divisions (column 0 and box 0).  The claim
("exactly one other division") predicts no elimination via row 0, and
indeed the spec-worded variant leaves candidate 1 in cell 12; the code
eliminates 1 from cell 12 (through column 0). -/
theorem C6_counterexample :
    (placements cexC6 0 1).card = 1 ∧
      (commonDivs 2 (placements cexC6 0 1) \ ({0} : Finset Nat)).card = 2 ∧
      1 ∉ (mark_excluded cexC6).2.cand 12 ∧
      1 ∈ (mark_excluded_spec cexC6).2.cand 12 := by
  refine ⟨by decide, by decide, by decide, by decide⟩

end Sudoku

namespace Sudoku

/-! ## Stronger invariants for the solver: valid boards -/

/-- No two distinct known cells sharing a division hold the same value
(exactly what `isvalid` checks). -/
def KnownDistinct (bd : Board) : Prop :=
  ∀ c0 v0, bd.known c0 = some v0 → ∀ c ∈ neighbors bd.order c0, c ≠ c0 →
    bd.known c ≠ some v0

/-- Known values lie in the value range `[1, n]`. -/
def KnownRange (bd : Board) : Prop :=
  ∀ c v, bd.known c = some v → v ∈ Finset.Icc 1 (bd.order ^ 2)

/-- The invariants of boards built by marking in-range candidate values on a
blank board: `GoodBoard` plus known-value distinctness and range. -/
def VGood (bd : Board) : Prop := GoodBoard bd ∧ KnownDistinct bd ∧ KnownRange bd

theorem knownDistinct_mark {bd : Board} (hg : GoodBoard bd) (hkd : KnownDistinct bd)
    {cell val : Nat} {s : Finset Nat} (hu : bd.unknown cell = some s) (hv : val ∈ s) :
    KnownDistinct (bd.mark cell val) := by
  intro c0 v0 hk0 c hc hne
  have hvc : val ∈ bd.cand cell := by rw [Board.cand, hu]; exact hv
  by_cases h0 : c0 = cell
  · subst h0
    rw [known_mark_self] at hk0
    injection hk0 with hveq
    subst hveq
    rw [known_mark_other val hne]
    intro hkc
    -- a known neighbor of `cell` already held `val`: contradicts consistency
    have hc2 : c0 ∈ neighbors bd.order c := by
      -- neighbors is symmetric on in-range cells
      obtain ⟨d, hd1, hd2⟩ := mem_neighbors.mp hc
      have hlt : c0 < bd.ncells := unknown_lt_ncells hg.1 hu
      exact neighbor_of_shared_div hd2 (mem_div2cells.mpr ⟨hlt, hd1⟩)
    exact hg.2.1 c val hkc c0 hc2 (fun he => hne he.symm) hvc
  · rw [known_mark_other val h0] at hk0
    by_cases h1 : c = cell
    · subst h1
      rw [known_mark_self]
      intro he
      injection he with hveq
      subst hveq
      exact hg.2.1 c0 val hk0 c hc hne hvc
    · rw [known_mark_other val h1]
      exact hkd c0 v0 hk0 c hc hne

theorem knownRange_mark {bd : Board} (hcr : CandRange bd) (hkr : KnownRange bd)
    {cell val : Nat} {s : Finset Nat} (hu : bd.unknown cell = some s) (hv : val ∈ s) :
    KnownRange (bd.mark cell val) := by
  intro c v hk
  by_cases h0 : c = cell
  · subst h0
    rw [known_mark_self] at hk
    injection hk with hveq
    subst hveq
    exact hcr c s hu hv
  · rw [known_mark_other val h0] at hk
    exact hkr c v hk

theorem vgood_mark {bd : Board} (h : VGood bd) {cell val : Nat} {s : Finset Nat}
    (hu : bd.unknown cell = some s) (hv : val ∈ s) : VGood (bd.mark cell val) :=
  ⟨goodBoard_mark h.1 val (unknown_lt_ncells h.1.1 hu),
   knownDistinct_mark h.1 h.2.1 hu hv,
   knownRange_mark h.1.2.2 h.2.2 hu hv⟩

theorem vgood_elim {bd : Board} (h : VGood bd) (cell val : Nat) :
    VGood (bd.elim cell val) := by
  refine ⟨goodBoard_elim h.1 cell val, ?_, ?_⟩
  · intro c0 v0 hk0 c hc hne
    exact h.2.1 c0 v0 hk0 c hc hne
  · intro c v hk
    exact h.2.2 c v hk

theorem vgood_blank (order : Nat) : VGood (blank order) := by
  refine ⟨goodBoard_blank order, ?_, ?_⟩
  · intro c0 v0 hk0
    simp [blank] at hk0
  · intro c v hk
    simp [blank] at hk

theorem msv_vgood {bd : Board} (h : VGood bd) : VGood (mark_single_vals bd).2 := by
  unfold mark_single_vals
  apply foldl_inv (P := fun acc => VGood acc.2) _ _ _ h
  intro a c _ ha
  rcases hu : a.2.unknown c with _ | s
  · simpa [hu] using ha
  · simp only [hu]
    by_cases h1 : s.card = 1
    · simp only [if_pos h1]
      exact vgood_mark ha hu (sup_id_mem (Finset.card_pos.mp (by omega)))
    · simpa [h1] using ha

theorem mscDiv_vgood {acc : Bool × Board} (d : Nat) (h : VGood acc.2) :
    VGood (mscDiv acc d).2 := by
  simp only [mscDiv]
  apply foldl_inv (P := fun x => VGood x.2) _ _ _ h
  intro a v _ ha
  by_cases h1 : (placements acc.2 d v).card = 1
  · simp only [if_pos h1]
    by_cases h2 : v ∈ a.2.cand ((placements acc.2 d v).sup id)
    · simp only [if_pos h2]
      obtain ⟨s, hu, hvs⟩ := mem_cand.mp h2
      exact vgood_mark ha hu hvs
    · simpa [h2] using ha
  · simpa [h1] using ha

theorem msc_vgood {bd : Board} (h : VGood bd) : VGood (mark_single_cells bd).2 := by
  unfold mark_single_cells
  apply foldl_inv (P := fun x => VGood x.2) _ _ _ h
  intro a d _ ha
  exact mscDiv_vgood d ha

theorem mexDiv_vgood {acc : Bool × Board} (div0 : Nat) (h : VGood acc.2) :
    VGood (mexDiv acc div0).2 := by
  unfold mexDiv
  apply foldl_inv (P := fun x => VGood x.2) _ _ _ h
  intro a1 v _ ha1
  unfold mexValStep
  apply foldl_inv (P := fun x => VGood x.2) _ _ _ ha1
  intro a2 dv _ ha2
  apply foldl_inv (P := fun x => VGood x.2) _ _ _ ha2
  intro a3 c _ ha3
  unfold mexCellStep
  by_cases h1 : v ∈ a3.2.cand c
  · simp only [if_pos h1]
    exact vgood_elim ha3 c v
  · simpa [h1] using ha3

theorem mex_vgood {bd : Board} (h : VGood bd) : VGood (mark_excluded bd).2 := by
  unfold mark_excluded
  apply foldl_inv (P := fun x => VGood x.2) _ _ _ h
  intro a d _ ha
  exact mexDiv_vgood d ha

theorem stepOnce_vgood {bd : Board} (h : VGood bd) : VGood (stepOnce bd).2 := by
  simp only [stepOnce]
  rcases hb1 : (mark_single_vals bd).1 with _ | _
  · simp only [Bool.false_eq_true, if_false]
    rw [(msv_inv bd).2.2 hb1]
    rcases hb2 : (mark_single_cells bd).1 with _ | _
    · simp only [Bool.false_eq_true, if_false]
      rw [(msc_inv bd).2.2 hb2]
      exact mex_vgood h
    · simp only [if_true]
      exact msc_vgood h
  · simp only [if_true]
    exact msv_vgood h

theorem mark_forced_vgood {bd : Board} (h : VGood bd) : VGood (mark_forced bd) := by
  unfold mark_forced
  generalize bd.measure + 1 = fuel
  induction fuel generalizing bd with
  | zero => exact h
  | succ f ih =>
      rcases hb : (stepOnce bd).1 with _ | _
      · have he : mfLoop (f + 1) bd = bd := by
          rw [mfLoop_succ, hb]
          simp
        rw [he]
        exact h
      · have he : mfLoop (f + 1) bd = mfLoop f (stepOnce bd).2 := by
          rw [mfLoop_succ, hb]
          simp
        rw [he]
        exact ih (stepOnce_vgood h)

end Sudoku

namespace Sudoku

/-! ## Partition preservation through the rules (no validity assumptions) -/

theorem msv_partition {bd : Board} (h : Partition bd) :
    Partition (mark_single_vals bd).2 ∧ (mark_single_vals bd).2.order = bd.order := by
  unfold mark_single_vals
  apply foldl_inv (P := fun acc => Partition acc.2 ∧ acc.2.order = bd.order) _ _ _ ⟨h, rfl⟩
  intro a c hc ha
  rcases hu : a.2.unknown c with _ | s
  · simpa [hu] using ha
  · simp only [hu]
    by_cases h1 : s.card = 1
    · simp only [if_pos h1]
      refine ⟨partition_mark ha.1 _ ?_, by rw [mark_order, ha.2]⟩
      show c < (a.2.order ^ 2) ^ 2
      rw [ha.2]
      exact List.mem_range.mp hc
    · simpa [h1] using ha

theorem mscDiv_partition {bd : Board} {acc : Bool × Board} (d : Nat)
    (h : Partition acc.2 ∧ acc.2.order = bd.order) :
    Partition (mscDiv acc d).2 ∧ (mscDiv acc d).2.order = bd.order := by
  simp only [mscDiv]
  apply foldl_inv (P := fun x => Partition x.2 ∧ x.2.order = bd.order) _ _ _ h
  intro a v _ ha
  by_cases h1 : (placements acc.2 d v).card = 1
  · simp only [if_pos h1]
    by_cases h2 : v ∈ a.2.cand ((placements acc.2 d v).sup id)
    · simp only [if_pos h2]
      obtain ⟨s, hu, _⟩ := mem_cand.mp h2
      exact ⟨partition_mark ha.1 _ (unknown_lt_ncells ha.1 hu), by rw [mark_order, ha.2]⟩
    · simpa [h2] using ha
  · simpa [h1] using ha

theorem msc_partition {bd : Board} (h : Partition bd) :
    Partition (mark_single_cells bd).2 ∧ (mark_single_cells bd).2.order = bd.order := by
  unfold mark_single_cells
  apply foldl_inv (P := fun x => Partition x.2 ∧ x.2.order = bd.order) _ _ _ ⟨h, rfl⟩
  intro a d _ ha
  exact mscDiv_partition d ha

theorem mexDiv_partition {bd : Board} {acc : Bool × Board} (div0 : Nat)
    (h : Partition acc.2 ∧ acc.2.order = bd.order) :
    Partition (mexDiv acc div0).2 ∧ (mexDiv acc div0).2.order = bd.order := by
  unfold mexDiv
  apply foldl_inv (P := fun x => Partition x.2 ∧ x.2.order = bd.order) _ _ _ h
  intro a1 v _ ha1
  unfold mexValStep
  apply foldl_inv (P := fun x => Partition x.2 ∧ x.2.order = bd.order) _ _ _ ha1
  intro a2 dv _ ha2
  apply foldl_inv (P := fun x => Partition x.2 ∧ x.2.order = bd.order) _ _ _ ha2
  intro a3 c _ ha3
  unfold mexCellStep
  by_cases hg : v ∈ a3.2.cand c
  · simp only [if_pos hg]
    exact ⟨partition_elim ha3.1 c v, by rw [elim_order, ha3.2]⟩
  · simpa [hg] using ha3

theorem mex_partition {bd : Board} (h : Partition bd) :
    Partition (mark_excluded bd).2 ∧ (mark_excluded bd).2.order = bd.order := by
  unfold mark_excluded
  apply foldl_inv (P := fun x => Partition x.2 ∧ x.2.order = bd.order) _ _ _ ⟨h, rfl⟩
  intro a d _ ha
  exact mexDiv_partition d ha

theorem stepOnce_partition {bd : Board} (h : Partition bd) :
    Partition (stepOnce bd).2 := by
  simp only [stepOnce]
  rcases hb1 : (mark_single_vals bd).1 with _ | _
  · simp only [Bool.false_eq_true, if_false]
    rw [(msv_inv bd).2.2 hb1]
    rcases hb2 : (mark_single_cells bd).1 with _ | _
    · simp only [Bool.false_eq_true, if_false]
      rw [(msc_inv bd).2.2 hb2]
      exact (mex_partition h).1
    · simp only [if_true]
      exact (msc_partition h).1
  · simp only [if_true]
    exact (msv_partition h).1

theorem partition_mark_forced {bd : Board} (h : Partition bd) :
    Partition (mark_forced bd) := by
  unfold mark_forced
  generalize bd.measure + 1 = fuel
  induction fuel generalizing bd with
  | zero => exact h
  | succ f ih =>
      rcases hb : (stepOnce bd).1 with _ | _
      · have he : mfLoop (f + 1) bd = bd := by
          rw [mfLoop_succ, hb]
          simp
        rw [he]
        exact h
      · have he : mfLoop (f + 1) bd = mfLoop f (stepOnce bd).2 := by
          rw [mfLoop_succ, hb]
          simp
        rw [he]
        exact ih (stepOnce_partition h)

theorem measure_mark_forced_le (bd : Board) :
    (mark_forced bd).measure ≤ bd.measure := by
  unfold mark_forced
  generalize bd.measure + 1 = fuel
  induction fuel generalizing bd with
  | zero => exact le_refl _
  | succ f ih =>
      rcases hb : (stepOnce bd).1 with _ | _
      · have he : mfLoop (f + 1) bd = bd := by
          rw [mfLoop_succ, hb]
          simp
        rw [he]
      · have he : mfLoop (f + 1) bd = mfLoop f (stepOnce bd).2 := by
          rw [mfLoop_succ, hb]
          simp
        rw [he]
        exact le_trans (ih _) (le_of_lt ((stepOnce_inv bd).2.1 hb))

/-! ## The search engine `solve` -/

/-- The branching-cell choice of `solve`: a cell of minimal candidate count
(`min((len(vals), random.random(), cell) ...)`), here the least such cell.
The random tie-break is captured by the `SolveFrom` relation below. -/
def minCell (bd : Board) : Option Nat :=
  ((List.range bd.ncells).filter (fun c => (bd.unknown c).isSome)).argmin
    (fun c => (bd.cand c).card)

/-- An alternative tie-break (largest cell among those of minimal candidate
count), modelling a different random seed. -/
def maxCell (bd : Board) : Option Nat :=
  (((List.range bd.ncells).filter (fun c => (bd.unknown c).isSome)).reverse).argmin
    (fun c => (bd.cand c).card)

/-- Candidate values in descending order (modelling another `random.sample`
outcome). -/
def descList (s : Finset Nat) : List Nat := (ascList s).reverse

/-- `solve(bd0, ∞)` as depth-first recursion, parameterised by the branching
cell choice and the value ordering (the two uses of `random`).  The explicit
stack of the Python generator realises exactly this depth-first traversal:
a popped frame applies its pending assignment (`marked`), propagates
(`mark_forced`), yields if solved, otherwise pushes one frame per candidate
value of the chosen cell. -/
def solveGoWith (pick : Board → Option Nat) (vord : Finset Nat → List Nat) :
    Nat → Board → List Board
  | 0, _ => []
  | fuel + 1, bd =>
      if issolved (mark_forced bd) then [mark_forced bd]
      else
        match pick (mark_forced bd) with
        | none => []
        | some cell =>
            (vord ((mark_forced bd).cand cell)).flatMap
              (fun v => solveGoWith pick vord fuel ((mark_forced bd).marked cell v))

/-- The canonical deterministic run of `solve` (least minimal cell,
ascending values).  The measure strictly decreases along every branch, so
the fuel never runs out. -/
def solve (bd : Board) : List Board := solveGoWith minCell ascList (bd.measure + 1) bd

/-- A second run of `solve` under a different seed (largest minimal cell,
descending values). -/
def solveAlt (bd : Board) : List Board := solveGoWith maxCell descList (bd.measure + 1) bd

/-- `isproper(bd, ∞)` without clue: `solve` yields exactly one solution
(the Python loop counts yields, bailing out at the second — equivalent to a
length-1 check). -/
def isproper (bd : Board) : Bool := (solve bd).length == 1

/-- `isproper(bd, ∞, clue=(cell,val))`: counting starts at 1 for the clue,
so the board is proper iff no alternative value at `cell` admits any
solution. -/
def isproperClue (bd : Board) (cell val : Nat) : Bool :=
  (ascList ((bd.cand cell).erase val)).all
    (fun w => (solve (bd.marked cell w)).isEmpty)

/-- The pick made by `min((len(vals), random.random(), cell) for (cell,
vals) in bd.unknown.items())`: an unknown cell of minimal candidate-set
cardinality. -/
def MinPick (bd : Board) (cell : Nat) : Prop :=
  ∃ s, bd.unknown cell = some s ∧ ∀ c s2, bd.unknown c = some s2 → s.card ≤ s2.card

/-- `SolveFrom bd l`: `l` is a possible yield sequence of `solve(bd, ∞)`
under some random seed — propagate, yield if solved, else branch on some
minimal-candidate cell with the candidate values in some order. -/
inductive SolveFrom : Board → List Board → Prop where
  | solved : ∀ bd, issolved (mark_forced bd) = true → SolveFrom bd [mark_forced bd]
  | branch : ∀ (bd : Board) (cell : Nat) (vals : List Nat) (lss : List (List Board)),
      issolved (mark_forced bd) = false →
      MinPick (mark_forced bd) cell →
      vals.Perm (ascList ((mark_forced bd).cand cell)) →
      vals.length = lss.length →
      (∀ i (h1 : i < vals.length) (h2 : i < lss.length),
        SolveFrom ((mark_forced bd).marked cell (vals.get ⟨i, h1⟩)) (lss.get ⟨i, h2⟩)) →
      SolveFrom bd lss.flatten

end Sudoku

namespace Sudoku

theorem solveGoWith_succ (pick : Board → Option Nat) (vord : Finset Nat → List Nat)
    (fuel : Nat) (bd : Board) :
    solveGoWith pick vord (fuel + 1) bd =
      if issolved (mark_forced bd) then [mark_forced bd]
      else
        match pick (mark_forced bd) with
        | none => []
        | some cell =>
            (vord ((mark_forced bd).cand cell)).flatMap
              (fun v => solveGoWith pick vord fuel ((mark_forced bd).marked cell v)) := rfl

theorem pick_spec_minCell :
    ∀ b, Partition b → issolved b = false → ∃ cell, minCell b = some cell ∧ MinPick b cell := by
  intro b hp hns
  obtain ⟨c0, hc0mem, hc0⟩ := List.all_eq_false.mp hns
  have hc0s : (b.unknown c0).isSome = true := by
    rcases hu : b.unknown c0 with _ | s
    · rw [hu] at hc0
      simp at hc0
    · rfl
  have hc0f : c0 ∈ (List.range b.ncells).filter (fun c => (b.unknown c).isSome) :=
    List.mem_filter.mpr ⟨hc0mem, hc0s⟩
  rcases hm : ((List.range b.ncells).filter (fun c => (b.unknown c).isSome)).argmin
      (fun c => (b.cand c).card) with _ | m
  · rw [List.argmin_eq_none] at hm
    rw [hm] at hc0f
    cases hc0f
  · have hmm : m ∈ ((List.range b.ncells).filter (fun c => (b.unknown c).isSome)).argmin
        (fun c => (b.cand c).card) := by
      rw [hm]
      rfl
    have hmf := List.argmin_mem hmm
    have hms : (b.unknown m).isSome = true := (List.mem_filter.mp hmf).2
    obtain ⟨s, hs⟩ := Option.isSome_iff_exists.mp hms
    refine ⟨m, hm, s, hs, ?_⟩
    intro c s2 hu2
    have hclt : c < b.ncells := by
      have h2 := (hp c).2
      rw [hu2] at h2
      exact h2.mp (Or.inr rfl)
    have hcf : c ∈ (List.range b.ncells).filter (fun c => (b.unknown c).isSome) :=
      List.mem_filter.mpr ⟨List.mem_range.mpr hclt, by rw [hu2]; rfl⟩
    have := List.le_of_mem_argmin hcf hmm
    rwa [Board.cand, Board.cand, hs, hu2] at this

theorem pick_spec_maxCell :
    ∀ b, Partition b → issolved b = false → ∃ cell, maxCell b = some cell ∧ MinPick b cell := by
  intro b hp hns
  obtain ⟨c0, hc0mem, hc0⟩ := List.all_eq_false.mp hns
  have hc0s : (b.unknown c0).isSome = true := by
    rcases hu : b.unknown c0 with _ | s
    · rw [hu] at hc0
      simp at hc0
    · rfl
  have hc0f : c0 ∈ ((List.range b.ncells).filter (fun c => (b.unknown c).isSome)).reverse :=
    List.mem_reverse.mpr (List.mem_filter.mpr ⟨hc0mem, hc0s⟩)
  rcases hm : (((List.range b.ncells).filter (fun c => (b.unknown c).isSome)).reverse).argmin
      (fun c => (b.cand c).card) with _ | m
  · rw [List.argmin_eq_none] at hm
    rw [hm] at hc0f
    cases hc0f
  · have hmm : m ∈ (((List.range b.ncells).filter
        (fun c => (b.unknown c).isSome)).reverse).argmin (fun c => (b.cand c).card) := by
      rw [hm]
      rfl
    have hmf := List.mem_reverse.mp (List.argmin_mem hmm)
    have hms : (b.unknown m).isSome = true := (List.mem_filter.mp hmf).2
    obtain ⟨s, hs⟩ := Option.isSome_iff_exists.mp hms
    refine ⟨m, hm, s, hs, ?_⟩
    intro c s2 hu2
    have hclt : c < b.ncells := by
      have h2 := (hp c).2
      rw [hu2] at h2
      exact h2.mp (Or.inr rfl)
    have hcf : c ∈ ((List.range b.ncells).filter (fun c => (b.unknown c).isSome)).reverse :=
      List.mem_reverse.mpr (List.mem_filter.mpr ⟨List.mem_range.mpr hclt, by rw [hu2]; rfl⟩)
    have := List.le_of_mem_argmin hcf hmm
    rwa [Board.cand, Board.cand, hs, hu2] at this

theorem solveGoWith_SolveFrom {pick : Board → Option Nat} {vord : Finset Nat → List Nat}
    (hpick : ∀ b, Partition b → issolved b = false →
      ∃ cell, pick b = some cell ∧ MinPick b cell)
    (hvord : ∀ s : Finset Nat, (vord s).Perm (ascList s)) :
    ∀ (fuel : Nat) (bd : Board), Partition bd → bd.measure < fuel →
      SolveFrom bd (solveGoWith pick vord fuel bd) := by
  intro fuel
  induction fuel with
  | zero =>
      intro bd _ h
      omega
  | succ f ih =>
      intro bd hp hm
      have hpb : Partition (mark_forced bd) := partition_mark_forced hp
      have hmb : (mark_forced bd).measure ≤ bd.measure := measure_mark_forced_le bd
      rw [solveGoWith_succ]
      rcases hs : issolved (mark_forced bd) with _ | _
      · simp only [Bool.false_eq_true, if_false]
        obtain ⟨cell, hcell, hmin⟩ := hpick _ hpb hs
        obtain ⟨s, hu, hminle⟩ := hmin
        rw [hcell]
        show SolveFrom bd ((vord ((mark_forced bd).cand cell)).flatMap
          (fun v => solveGoWith pick vord f ((mark_forced bd).marked cell v)))
        have hflat : (vord ((mark_forced bd).cand cell)).flatMap
            (fun v => solveGoWith pick vord f ((mark_forced bd).marked cell v)) =
            ((vord ((mark_forced bd).cand cell)).map
              (fun v => solveGoWith pick vord f ((mark_forced bd).marked cell v))).flatten := by
          rw [List.flatMap_def]
        rw [hflat]
        have hclt : cell < (mark_forced bd).ncells := unknown_lt_ncells hpb hu
        refine SolveFrom.branch bd cell _ _ hs ⟨s, hu, hminle⟩ (hvord _)
          (by rw [List.length_map]) ?_
        intro i h1 h2
        rw [List.get_map]
        apply ih
        · exact partition_mark hpb _ hclt
        · have hvmem : (vord ((mark_forced bd).cand cell)).get ⟨i, h1⟩ ∈
              ascList ((mark_forced bd).cand cell) :=
            (hvord _).mem_iff.mp (List.get_mem _ _ _)
          have hlt2 : ((mark_forced bd).marked cell
              ((vord ((mark_forced bd).cand cell)).get ⟨i, h1⟩)).measure <
              (mark_forced bd).measure :=
            measure_mark_lt _ hclt hu
          omega
      · simp only [if_true]
        exact SolveFrom.solved bd hs

theorem solve_SolveFrom {bd : Board} (hp : Partition bd) : SolveFrom bd (solve bd) :=
  solveGoWith_SolveFrom pick_spec_minCell (fun _ => List.Perm.refl _) _ bd hp
    (Nat.lt_succ_self _)

theorem solveAlt_SolveFrom {bd : Board} (hp : Partition bd) : SolveFrom bd (solveAlt bd) :=
  solveGoWith_SolveFrom pick_spec_maxCell (fun s => List.reverse_perm (ascList s)) _ bd hp
    (Nat.lt_succ_self _)

end Sudoku

namespace Sudoku

/-! ## The yields of `solve`: admissible assignments, each exactly once -/

/-- The complete assignment read off a (solved) board's knowns. -/
def assignOf (bd : Board) (c : Nat) : Nat := (bd.known c).getD 0

/-- The value vector of a board over its cell range. -/
def boardVec (bd : Board) : List Nat := (List.range bd.ncells).map (assignOf bd)

theorem boardVec_length (bd : Board) : (boardVec bd).length = bd.ncells := by
  simp [boardVec]

theorem boardVec_get {b : Board} {c : Nat} (hc : c < (boardVec b).length) :
    (boardVec b).get ⟨c, hc⟩ = assignOf b c := by
  simp [boardVec]

theorem issolved_unknown {bd : Board} (hs : issolved bd = true) {c : Nat}
    (hc : c < bd.ncells) : bd.unknown c = none := by
  have h := List.all_eq_true.mp hs c (List.mem_range.mpr hc)
  simpa [Option.isNone_iff_eq_none] using h

theorem solved_known_isSome {bd : Board} (hp : Partition bd) (hs : issolved bd = true)
    {c : Nat} (hc : c < bd.ncells) : (bd.known c).isSome = true := by
  rcases (hp c).2.mpr hc with h | h
  · exact h
  · rw [issolved_unknown hs hc] at h
    simp at h

/-- A division on which `f` is injective with in-range values attains exactly
the value range (pigeonhole on the `n`-cell division). -/
theorem image_div_eq_Icc {order : Nat} {f : Nat → Nat} {d : Nat} (h0 : 0 < order)
    (hd : d < 3 * order ^ 2)
    (hinj : ∀ c ∈ div2cells order d, ∀ c2 ∈ div2cells order d, c ≠ c2 → f c ≠ f c2)
    (hrange : ∀ c ∈ div2cells order d, f c ∈ Finset.Icc 1 (order ^ 2)) :
    (div2cells order d).image f = Finset.Icc 1 (order ^ 2) := by
  apply Finset.eq_of_subset_of_card_le
  · intro v hv
    obtain ⟨c, hc, rfl⟩ := Finset.mem_image.mp hv
    exact hrange c hc
  · have hinj2 : Set.InjOn f (div2cells order d : Set Nat) := by
      intro a ha b hb hab
      by_contra hne
      exact hinj a (Finset.mem_coe.mp ha) b (Finset.mem_coe.mp hb) hne hab
    rw [Finset.card_image_of_injOn hinj2, card_div2cells h0 hd, Nat.card_Icc]
    omega

/-- An assignment attaining every value on every division takes in-range
values on every cell (pigeonhole on the cell's row). -/
theorem mem_Icc_of_divOnto {order : Nat} {f : Nat → Nat} (ho : DivOnto order f)
    {c : Nat} (hc : c < (order ^ 2) ^ 2) : f c ∈ Finset.Icc 1 (order ^ 2) := by
  have hn : 0 < order ^ 2 := sq_pos_of_lt_sq hc
  have h0 : 0 < order := by
    rcases Nat.eq_zero_or_pos order with h | h
    · rw [h] at hn
      simp at hn
    · exact h
  have hd : c / order ^ 2 < 3 * order ^ 2 := by
    have h1 := cell_row_lt hc
    generalize order ^ 2 = n at *
    omega
  have hcd : c ∈ div2cells order (c / order ^ 2) :=
    mem_div2cells.mpr ⟨hc, mem_cell2divs.mpr (Or.inl rfl)⟩
  have hsub : Finset.Icc 1 (order ^ 2) ⊆ (div2cells order (c / order ^ 2)).image f := by
    intro v hv
    obtain ⟨c2, hc2, hf2⟩ := ho _ hd v hv
    exact Finset.mem_image.mpr ⟨c2, hc2, hf2⟩
  have hcard : ((div2cells order (c / order ^ 2)).image f).card ≤
      (Finset.Icc 1 (order ^ 2)).card := by
    calc ((div2cells order (c / order ^ 2)).image f).card
        ≤ (div2cells order (c / order ^ 2)).card := Finset.card_image_le
      _ = order ^ 2 := card_div2cells h0 hd
      _ = (Finset.Icc 1 (order ^ 2)).card := by rw [Nat.card_Icc]; omega
  have heq := Finset.eq_of_subset_of_card_le hsub hcard
  rw [heq]
  exact Finset.mem_image_of_mem f hcd

/-- A solved board meeting the class invariants realises its own knowns as an
admissible assignment. -/
theorem admissible_assignOf_solved {S : Board} (hv : VGood S) (hs : issolved S = true) :
    Admissible S (assignOf S) := by
  obtain ⟨⟨hp, hcons, hcr⟩, hkd, hkr⟩ := hv
  have hinj : ∀ d, d < 3 * S.order ^ 2 → ∀ c ∈ div2cells S.order d,
      ∀ c2 ∈ div2cells S.order d, c ≠ c2 → assignOf S c ≠ assignOf S c2 := by
    intro d hd c hcd c2 hcd2 hne
    have hc : c < S.ncells := (mem_div2cells.mp hcd).1
    have hc2 : c2 < S.ncells := (mem_div2cells.mp hcd2).1
    obtain ⟨v, hkv⟩ := Option.isSome_iff_exists.mp (solved_known_isSome hp hs hc)
    obtain ⟨v2, hkv2⟩ := Option.isSome_iff_exists.mp (solved_known_isSome hp hs hc2)
    rw [assignOf, assignOf, hkv, hkv2]
    simp only [Option.getD_some]
    intro he
    have hnb : c2 ∈ neighbors S.order c := neighbor_of_shared_div hcd hcd2
    refine hkd c v hkv c2 hnb (fun h => hne h.symm) ?_
    rw [hkv2, he]
  have hrange : ∀ c, c < S.ncells → assignOf S c ∈ Finset.Icc 1 (S.order ^ 2) := by
    intro c hc
    obtain ⟨v, hkv⟩ := Option.isSome_iff_exists.mp (solved_known_isSome hp hs hc)
    rw [assignOf, hkv]
    simpa using hkr c v hkv
  refine ⟨?_, ?_, hinj, ?_⟩
  · intro c v hk
    rw [assignOf, hk]
    rfl
  · intro c s hu
    have h1 : (S.unknown c).isSome = true := by rw [hu]; rfl
    have hc : c < S.ncells := (hp c).2.mp (Or.inr h1)
    rw [issolved_unknown hs hc] at hu
    cases hu
  · intro d hd v hvI
    have himg := image_div_eq_Icc (f := assignOf S) ?_ hd (hinj d hd)
        (fun c hcd => hrange c (mem_div2cells.mp hcd).1)
    · rw [← himg] at hvI
      obtain ⟨c, hcd, hfc⟩ := Finset.mem_image.mp hvI
      exact ⟨c, hcd, hfc⟩
    · have h1 : 1 ≤ S.order ^ 2 := by
        have := Finset.mem_Icc.mp hvI
        omega
      rcases Nat.eq_zero_or_pos S.order with h | h
      · rw [h] at h1
        simp at h1
      · exact h

/-- On a solved board, every admissible assignment agrees with the knowns. -/
theorem admissible_solved_eq {S : Board} (hp : Partition S) (hs : issolved S = true)
    {f : Nat → Nat} (hf : Admissible S f) {c : Nat} (hc : c < S.ncells) :
    f c = assignOf S c := by
  obtain ⟨v, hkv⟩ := Option.isSome_iff_exists.mp (solved_known_isSome hp hs hc)
  have h1 := hf.1 c v hkv
  rw [assignOf, hkv, Option.getD_some, h1]

/-- Marking an unknown cell with one of its candidates partitions the
admissible assignments: those of the marked board are exactly those of the
original that choose that value at the cell. -/
theorem admissible_marked_split {bd : Board} {cell val : Nat} {s : Finset Nat}
    (hcell : cell < bd.ncells) (hk : bd.known cell = none)
    (hu : bd.unknown cell = some s) (hv : val ∈ s) (f : Nat → Nat) :
    Admissible (bd.mark cell val) f ↔ Admissible bd f ∧ f cell = val := by
  constructor
  · rintro ⟨hext, hresp, hinj, honto⟩
    have hfcell : f cell = val := hext cell val (known_mark_self bd cell val)
    refine ⟨⟨?_, ?_, hinj, honto⟩, hfcell⟩
    · intro c v hkc
      rcases eq_or_ne c cell with rfl | hne
      · rw [hk] at hkc
        cases hkc
      · exact hext c v (by rw [known_mark_other val hne]; exact hkc)
    · intro c s2 hu2
      rcases eq_or_ne c cell with rfl | hne
      · rw [hu] at hu2
        injection hu2 with h2
        subst h2
        rw [hfcell]
        exact hv
      · by_cases hn : c ∈ neighbors bd.order cell
        · have h3 : (bd.mark cell val).unknown c = some (s2.erase val) := by
            rw [unknown_mark_of_ne val hne, if_pos hn, hu2]
            rfl
          exact Finset.mem_of_mem_erase (hresp c (s2.erase val) h3)
        · have h3 : (bd.mark cell val).unknown c = some s2 := by
            rw [unknown_mark_of_ne val hne, if_neg hn]
            exact hu2
          exact hresp c s2 h3
  · rintro ⟨⟨hext, hresp, hinj, honto⟩, hfcell⟩
    refine ⟨?_, ?_, hinj, honto⟩
    · intro c v hkc
      rcases eq_or_ne c cell with rfl | hne
      · rw [known_mark_self] at hkc
        injection hkc with h2
        rw [← h2]
        exact hfcell
      · rw [known_mark_other val hne] at hkc
        exact hext c v hkc
    · intro c s2 hu2
      rcases eq_or_ne c cell with rfl | hne
      · rw [unknown_mark_self] at hu2
        cases hu2
      · rw [unknown_mark_of_ne val hne] at hu2
        by_cases hn : c ∈ neighbors bd.order cell
        · rw [if_pos hn] at hu2
          rcases hu3 : bd.unknown c with _ | s3
          · rw [hu3] at hu2
            cases hu2
          · rw [hu3] at hu2
            injection hu2 with h2
            subst h2
            refine Finset.mem_erase_of_ne_of_mem ?_ (hresp c s3 hu3)
            obtain ⟨d, hd1, hd2⟩ := mem_neighbors.mp hn
            have hcelld : cell ∈ div2cells bd.order d := mem_div2cells.mpr ⟨hcell, hd1⟩
            have hdlt : d < 3 * bd.order ^ 2 := cell2divs_lt_3n hcell hd1
            rw [← hfcell]
            exact hinj d hdlt c hd2 cell hcelld hne
        · rw [if_neg hn] at hu2
          exact hresp c s2 hu2

end Sudoku

namespace Sudoku

theorem ascList_nodup (s : Finset Nat) : (ascList s).Nodup :=
  (List.nodup_range _).filter _

theorem ncells_eq_of_order_eq {b bd : Board} (h : b.order = bd.order) :
    b.ncells = bd.ncells := by
  rw [Board.ncells, Board.ncells, h]

/-- The yield characterisation of `solve`: on a board satisfying the class
invariants, any run (any random seed) yields solved boards whose knowns are
admissible assignments of the input board, with no duplicate value vector,
and every admissible assignment of the input is realised by some yield. -/
theorem solveFrom_yields {bd : Board} {l : List Board} (hs : SolveFrom bd l) :
    VGood bd →
      (∀ b ∈ l, issolved b = true ∧ VGood b ∧ b.order = bd.order ∧
        Admissible bd (assignOf b)) ∧
      (l.map boardVec).Nodup ∧
      ∀ f, Admissible bd f → ∃ b ∈ l, ∀ c, c < bd.ncells → assignOf b c = f c := by
  induction hs with
  | solved bd hsol =>
      intro hv
      have hvm : VGood (mark_forced bd) := mark_forced_vgood hv
      have hsound := mark_forced_sound hv.1
      refine ⟨?_, by simp, ?_⟩
      · intro b hb
        rw [List.mem_singleton] at hb
        subst hb
        exact ⟨hsol, hvm, hsound.2.1, (hsound.2.2 _).mp (admissible_assignOf_solved hvm hsol)⟩
      · intro f hf
        refine ⟨mark_forced bd, List.mem_singleton_self _, ?_⟩
        intro c hc
        have hc2 : c < (mark_forced bd).ncells := by
          rw [ncells_eq_of_order_eq hsound.2.1]
          exact hc
        exact (admissible_solved_eq hvm.1.1 hsol ((hsound.2.2 f).mpr hf) hc2).symm
  | branch bd cell vals lss hnsol hpick hperm hlen hsub ih =>
      intro hv
      have hvR : VGood (mark_forced bd) := mark_forced_vgood hv
      have hsound := mark_forced_sound hv.1
      obtain ⟨s, hu, hmin⟩ := hpick
      have hcell : cell < (mark_forced bd).ncells := unknown_lt_ncells hvR.1.1 hu
      have hknone : (mark_forced bd).known cell = none := known_none_of_unknown hvR.1.1 hu
      have hcand : (mark_forced bd).cand cell = s := by
        rw [Board.cand, hu]
        rfl
      have hvalsnd : vals.Nodup := hperm.nodup_iff.mpr (ascList_nodup _)
      have hvmem : ∀ i (h1 : i < vals.length), vals.get ⟨i, h1⟩ ∈ s := by
        intro i h1
        have h2 := hperm.mem_iff.mp (List.get_mem vals i h1)
        rw [hcand] at h2
        exact mem_ascList.mp h2
      have hIH : ∀ i (h1 : i < vals.length) (h2 : i < lss.length),
          (∀ b ∈ lss.get ⟨i, h2⟩, issolved b = true ∧ VGood b ∧
            b.order = (mark_forced bd).order ∧
            Admissible ((mark_forced bd).mark cell (vals.get ⟨i, h1⟩)) (assignOf b)) ∧
          ((lss.get ⟨i, h2⟩).map boardVec).Nodup ∧
          ∀ f, Admissible ((mark_forced bd).mark cell (vals.get ⟨i, h1⟩)) f →
            ∃ b ∈ lss.get ⟨i, h2⟩, ∀ c, c < (mark_forced bd).ncells → assignOf b c = f c :=
        fun i h1 h2 => ih i h1 h2 (vgood_mark hvR hu (hvmem i h1))
      -- facts about every member of branch i
      have hmem_branch : ∀ i (h1 : i < vals.length) (h2 : i < lss.length),
          ∀ b ∈ lss.get ⟨i, h2⟩, issolved b = true ∧ VGood b ∧ b.order = bd.order ∧
            Admissible bd (assignOf b) ∧ assignOf b cell = vals.get ⟨i, h1⟩ := by
        intro i h1 h2 b hb
        obtain ⟨hsol, hvb, hob, hadm⟩ := (hIH i h1 h2).1 b hb
        have hsplit := (admissible_marked_split hcell hknone hu (hvmem i h1)
          (assignOf b)).mp hadm
        exact ⟨hsol, hvb, by rw [hob, hsound.2.1],
          (hsound.2.2 _).mp hsplit.1, hsplit.2⟩
      refine ⟨?_, ?_, ?_⟩
      · intro b hb
        obtain ⟨l2, hl2, hbl2⟩ := List.mem_flatten.mp hb
        obtain ⟨⟨i, h2⟩, rfl⟩ := List.mem_iff_get.mp hl2
        have h1 : i < vals.length := by rw [hlen]; exact h2
        obtain ⟨hsol, hvb, hob, hadm, _⟩ := hmem_branch i h1 h2 b hbl2
        exact ⟨hsol, hvb, hob, hadm⟩
      · rw [List.map_flatten]
        rw [List.nodup_flatten]
        constructor
        · intro l2 hl2
          obtain ⟨l3, hl3, rfl⟩ := List.mem_map.mp hl2
          obtain ⟨⟨i, h2⟩, rfl⟩ := List.mem_iff_get.mp hl3
          exact (hIH i (by rw [hlen]; exact h2) h2).2.1
        · rw [List.pairwise_iff_get]
          intro gi gj hij
          obtain ⟨i, hi⟩ := gi
          obtain ⟨j, hj⟩ := gj
          have hij2 : i < j := hij
          have hi2 : i < lss.length := by simpa using hi
          have hj2 : j < lss.length := by simpa using hj
          have h1i : i < vals.length := by rw [hlen]; exact hi2
          have h1j : j < vals.length := by rw [hlen]; exact hj2
          simp only [List.get_map]
          intro x hxi hxj
          obtain ⟨b, hbi, rfl⟩ := List.mem_map.mp hxi
          obtain ⟨b2, hb2j, hvec⟩ := List.mem_map.mp hxj
          obtain ⟨_, _, hob, _, hcb⟩ := hmem_branch i h1i hi2 b hbi
          obtain ⟨_, _, hob2, _, hcb2⟩ := hmem_branch j h1j hj2 b2 hb2j
          have hcellb : cell < (boardVec b).length := by
            rw [boardVec_length, ncells_eq_of_order_eq hob,
              ← ncells_eq_of_order_eq hsound.2.1]
            exact hcell
          have hcellb2 : cell < (boardVec b2).length := by
            rw [boardVec_length, ncells_eq_of_order_eq hob2,
              ← ncells_eq_of_order_eq hsound.2.1]
            exact hcell
          have hgets := List.get_of_eq hvec ⟨cell, hcellb2⟩
          rw [boardVec_get hcellb2] at hgets
          rw [boardVec_get] at hgets
          have h3 : vals.get ⟨j, h1j⟩ = vals.get ⟨i, h1i⟩ := by
            rw [← hcb, ← hcb2]
            exact hgets
          have h4 := List.Nodup.get_inj_iff hvalsnd |>.mp h3
          have h5 : j = i := congrArg Fin.val h4
          omega
      · intro f hf
        have hfR : Admissible (mark_forced bd) f := (hsound.2.2 f).mpr hf
        have hfc : f cell ∈ s := hfR.2.1 cell s hu
        have hfv : f cell ∈ vals := by
          rw [hperm.mem_iff, hcand]
          exact mem_ascList.mpr hfc
        obtain ⟨⟨i, h1⟩, hg⟩ := List.mem_iff_get.mp hfv
        have h2 : i < lss.length := by rw [← hlen]; exact h1
        have hfm : Admissible ((mark_forced bd).mark cell (vals.get ⟨i, h1⟩)) f := by
          rw [admissible_marked_split hcell hknone hu (hvmem i h1) f]
          exact ⟨hfR, hg.symm⟩
        obtain ⟨b, hb, hag⟩ := (hIH i h1 h2).2.2 f hfm
        refine ⟨b, List.mem_flatten.mpr ⟨lss.get ⟨i, h2⟩, List.get_mem lss _ _, hb⟩, ?_⟩
        intro c hc
        refine hag c ?_
        rw [ncells_eq_of_order_eq hsound.2.1]
        exact hc

end Sudoku

namespace Sudoku

theorem boardVec_eq_of_agree {b b2 : Board} (hn : b.ncells = b2.ncells)
    (h : ∀ c, c < b.ncells → assignOf b c = assignOf b2 c) :
    boardVec b = boardVec b2 := by
  apply List.ext_get
  · simp [boardVec_length, hn]
  · intro n h1 h2
    rw [boardVec_get, boardVec_get]
    refine h n ?_
    rw [boardVec_length] at h1
    exact h1

/-- A board on which the yields of `solve` DO depend on the random
tie-breaking: a propagation fixed point whose `known` values lie outside the
candidate range, making the forcing rules unsound.  Branching at the least
minimal cell (cell 2) triggers an exclusion cascade that empties a candidate
set in every branch, while branching at the greatest minimal cell (cell 15)
completes four boards. -/
def cexC2 : Board :=
  { order := 2
    known := fun c =>
      if c = 0 then some 20 else if c = 1 then some 21
      else if c = 4 then some 22 else if c = 5 then some 23
      else if c = 6 then some 24 else if c = 7 then some 25
      else if c = 8 then some 26 else if c = 12 then some 27 else none
    unknown := fun c =>
      if c = 2 ∨ c = 3 ∨ c = 9 ∨ c = 10 ∨ c = 11 ∨ c = 13 ∨ c = 14 ∨ c = 15
      then some ({1, 2, 3, 4} : Finset Nat) else none }

set_option maxRecDepth 1000000 in
set_option maxHeartbeats 4000000 in
/-- C2 counterexample: on `cexC2`, the run of `solve` that always breaks ties
toward the least cell and ascending values yields no solution, while the run
that breaks ties toward the greatest cell yields four — so neither the number
nor the set of enumerated solutions is independent of the random
tie-breaking, and "yields exactly one solution" is seed-dependent. -/
theorem C2_counterexample :
    (solve cexC2).length = 0 ∧ (solveAlt cexC2).length = 4 := by decide

/-- C2 (amended): on boards satisfying the invariants maintained by the board
API (`VGood`), the claim holds — under any random seed (any `SolveFrom` run
`l`), `isproper(bd)` is true iff that run yields exactly one board, and the
multiset of yield value-vectors is the same for every seed. -/
theorem C2_isproper_iff_unique_solution (bd : Board) (hv : VGood bd)
    (l : List Board) (hl : SolveFrom bd l) :
    ((solve bd).map boardVec).Perm (l.map boardVec) ∧
      (isproper bd = true ↔ l.length = 1) := by
  have hc1 := solveFrom_yields (solve_SolveFrom hv.1.1) hv
  have hc2 := solveFrom_yields hl hv
  have htrans : ∀ (l1 l2 : List Board),
      (∀ b ∈ l1, issolved b = true ∧ VGood b ∧ b.order = bd.order ∧
        Admissible bd (assignOf b)) →
      (∀ b ∈ l2, issolved b = true ∧ VGood b ∧ b.order = bd.order ∧
        Admissible bd (assignOf b)) →
      (∀ f, Admissible bd f → ∃ b ∈ l2, ∀ c, c < bd.ncells → assignOf b c = f c) →
      ∀ x, x ∈ l1.map boardVec → x ∈ l2.map boardVec := by
    intro l1 l2 h1 h1b h2 x hx
    obtain ⟨b, hb, rfl⟩ := List.mem_map.mp hx
    obtain ⟨_, _, hob, hadm⟩ := h1 b hb
    obtain ⟨b2, hb2, hag⟩ := h2 (assignOf b) hadm
    obtain ⟨_, _, hob2, _⟩ := h1b b2 hb2
    refine List.mem_map.mpr ⟨b2, hb2, ?_⟩
    refine boardVec_eq_of_agree ?_ ?_
    · rw [ncells_eq_of_order_eq hob2, ncells_eq_of_order_eq hob]
    · intro c hc
      refine hag c ?_
      rw [← ncells_eq_of_order_eq hob2]
      exact hc
  have hmm : ∀ x, x ∈ (solve bd).map boardVec ↔ x ∈ l.map boardVec := by
    intro x
    constructor
    · exact htrans (solve bd) l hc1.1 hc2.1 hc2.2.2 x
    · exact htrans l (solve bd) hc2.1 hc1.1 hc1.2.2 x
  have hperm := (List.perm_ext_iff_of_nodup hc1.2.1 hc2.2.1).mpr hmm
  refine ⟨hperm, ?_⟩
  have hlen : (solve bd).length = l.length := by
    have h3 := hperm.length_eq
    simpa using h3
  rw [isproper, beq_iff_eq, hlen]

/-- Witness for `C2_isproper_iff_unique_solution` at the order-1 blank
board. -/
theorem C2_isproper_iff_unique_solution_witness :
    VGood (blank 1) ∧ SolveFrom (blank 1) (solve (blank 1)) ∧
      (isproper (blank 1) = true ↔ (solve (blank 1)).length = 1) :=
  ⟨vgood_blank 1, solve_SolveFrom (partition_blank 1),
    (C2_isproper_iff_unique_solution (blank 1) (vgood_blank 1) (solve (blank 1))
      (solve_SolveFrom (partition_blank 1))).2⟩

end Sudoku

namespace Sudoku

/-! ## `generate_from` at `minbranch=False`, `maxguesses=∞` -/

theorem admissible_blank_iff (order : Nat) (g : Nat → Nat) :
    Admissible (blank order) g ↔
      (∀ c, c < (order ^ 2) ^ 2 → g c ∈ Finset.Icc 1 (order ^ 2)) ∧
        DivInj order g ∧ DivOnto order g := by
  constructor
  · rintro ⟨hext, hresp, hinj, honto⟩
    refine ⟨?_, hinj, honto⟩
    intro c hc
    refine hresp c _ ?_
    simp [blank, hc]
  · rintro ⟨hrange, hinj, honto⟩
    refine ⟨?_, ?_, hinj, honto⟩
    · intro c v hk
      simp [blank] at hk
    · intro c s hu
      simp only [blank] at hu
      by_cases hc : c < (order ^ 2) ^ 2
      · rw [if_pos hc] at hu
        injection hu with h2
        subst h2
        exact hrange c hc
      · rw [if_neg hc] at hu
        cases hu

/-- Marks drawn from an admissible assignment, applied in any duplicate-free
order: the fold keeps the invariants, stays admissible for the assignment,
and cuts the admissible set down exactly by the marked values. -/
theorem marks_foldl_admissible (f : Nat → Nat) :
    ∀ (M : List Nat) (B : Board), VGood B → Admissible B f →
      (∀ c ∈ M, (B.unknown c).isSome = true) → M.Nodup →
      VGood (M.foldl (fun b c => b.mark c (f c)) B) ∧
      (M.foldl (fun b c => b.mark c (f c)) B).order = B.order ∧
      Admissible (M.foldl (fun b c => b.mark c (f c)) B) f ∧
      ∀ g, Admissible (M.foldl (fun b c => b.mark c (f c)) B) g ↔
        (Admissible B g ∧ ∀ c ∈ M, g c = f c) := by
  intro M
  induction M with
  | nil =>
      intro B hv hf _ _
      exact ⟨hv, rfl, hf, fun g => by simp⟩
  | cons c0 M ih =>
      intro B hv hf hM hnd
      rw [List.foldl_cons]
      have hu0 : (B.unknown c0).isSome = true := hM c0 (List.mem_cons_self c0 M)
      obtain ⟨s, hu⟩ := Option.isSome_iff_exists.mp hu0
      have hv0 : f c0 ∈ s := hf.2.1 c0 s hu
      have hcell : c0 < B.ncells := unknown_lt_ncells hv.1.1 hu
      have hknone : B.known c0 = none := known_none_of_unknown hv.1.1 hu
      have hsplit := fun g => admissible_marked_split hcell hknone hu hv0 g
      have hv2 : VGood (B.mark c0 (f c0)) := vgood_mark hv hu hv0
      have hf2 : Admissible (B.mark c0 (f c0)) f := (hsplit f).mpr ⟨hf, rfl⟩
      have hM2 : ∀ c ∈ M, ((B.mark c0 (f c0)).unknown c).isSome = true := by
        intro c hc
        have hne : c ≠ c0 := fun he => (List.nodup_cons.mp hnd).1 (he ▸ hc)
        rw [unknown_mark_of_ne _ hne]
        by_cases hn : c ∈ neighbors B.order c0
        · rw [if_pos hn]
          obtain ⟨s2, hs2⟩ :=
            Option.isSome_iff_exists.mp (hM c (List.mem_cons_of_mem _ hc))
          rw [hs2]
          rfl
        · rw [if_neg hn]
          exact hM c (List.mem_cons_of_mem _ hc)
      obtain ⟨q1, q2, q3, q4⟩ :=
        ih (B.mark c0 (f c0)) hv2 hf2 hM2 (List.nodup_cons.mp hnd).2
      refine ⟨q1, by rw [q2]; rfl, q3, ?_⟩
      intro g
      rw [q4 g, hsplit g]
      constructor
      · rintro ⟨⟨hg, hgc0⟩, hrest⟩
        refine ⟨hg, ?_⟩
        intro c hc
        rcases List.mem_cons.mp hc with rfl | hc2
        · exact hgc0
        · exact hrest c hc2
      · rintro ⟨hg, hall⟩
        exact ⟨⟨hg, hall c0 (List.mem_cons_self c0 M)⟩,
          fun c hc => hall c (List.mem_cons_of_mem _ hc)⟩

/-- The board `new()` builds in `generate_from`: the cells of `M` marked with
their values under the solution assignment `f` on a blank board. -/
def markedOf (order : Nat) (f : Nat → Nat) (M : List Nat) : Board :=
  marked_up order (M.map (fun c => (c, f c)))

theorem markedOf_foldl (order : Nat) (f : Nat → Nat) (M : List Nat) :
    markedOf order f M = M.foldl (fun b c => b.mark c (f c)) (blank order) := by
  rw [markedOf, marked_up, List.foldl_map]

/-- Admissibility over a board built from part of a valid assignment. -/
theorem markedOf_admissible (order : Nat) (f : Nat → Nat)
    (hinj : DivInj order f) (honto : DivOnto order f)
    (M : List Nat) (hnd : M.Nodup) (hM : ∀ c ∈ M, c < (order ^ 2) ^ 2) :
    VGood (markedOf order f M) ∧ (markedOf order f M).order = order ∧
      Admissible (markedOf order f M) f ∧
      ∀ g, Admissible (markedOf order f M) g ↔
        ((∀ c, c < (order ^ 2) ^ 2 → g c ∈ Finset.Icc 1 (order ^ 2)) ∧
          DivInj order g ∧ DivOnto order g) ∧ ∀ c ∈ M, g c = f c := by
  have hbf : Admissible (blank order) f :=
    (admissible_blank_iff order f).mpr
      ⟨fun c hc => mem_Icc_of_divOnto honto hc, hinj, honto⟩
  have hMu : ∀ c ∈ M, ((blank order).unknown c).isSome = true := by
    intro c hc
    simp [blank, hM c hc]
  obtain ⟨q1, q2, q3, q4⟩ :=
    marks_foldl_admissible f M (blank order) (vgood_blank order) hbf hMu hnd
  rw [markedOf_foldl]
  refine ⟨q1, q2, q3, fun g => ?_⟩
  rw [q4 g, admissible_blank_iff]

end Sudoku

namespace Sudoku

/-- `generate_from(soln)` at `minbranch=False`, `maxguesses=∞`, as a function
of the removal order (the successive `random.choice` picks, here the list
`rest` of cells still in `known`) and the solution assignment `f`; returns
the final clue cells.  Each chosen cell is popped from `known`; it is
re-added as a clue iff it is not rederived by `mark_forced` and the remaining
board is not proper with the clue hint (`isproper(bd2, clue=(cell, val))`). -/
def genFrom (order : Nat) (f : Nat → Nat) : List Nat → List Nat → List Nat
  | [], csk => csk
  | cell :: rest, csk =>
      if ((mark_forced (markedOf order f (rest ++ csk))).known cell).isSome then
        genFrom order f rest csk
      else if isproperClue (mark_forced (markedOf order f (rest ++ csk)))
          cell (f cell) then
        genFrom order f rest csk
      else genFrom order f rest (cell :: csk)

/-- The `generate_from` loop invariant: at every step, the board built from
the remaining known cells and the clues admits only the original solution;
the invariant survives to the final clue set. -/
theorem genFrom_unique (order : Nat) (f : Nat → Nat)
    (hinj : DivInj order f) (honto : DivOnto order f) :
    ∀ (rest csk : List Nat), (rest ++ csk).Nodup →
      (∀ c ∈ rest ++ csk, c < (order ^ 2) ^ 2) →
      (∀ g, Admissible (markedOf order f (rest ++ csk)) g →
        ∀ c, c < (order ^ 2) ^ 2 → g c = f c) →
      (genFrom order f rest csk).Nodup ∧
        (∀ c ∈ genFrom order f rest csk, c < (order ^ 2) ^ 2) ∧
        ∀ g, Admissible (markedOf order f (genFrom order f rest csk)) g →
          ∀ c, c < (order ^ 2) ^ 2 → g c = f c := by
  intro rest
  induction rest with
  | nil =>
      intro csk h1 h2 h3
      exact ⟨by simpa using h1, by simpa using h2, by simpa using h3⟩
  | cons cell rest ih =>
      intro csk h1 h2 h3
      rw [List.cons_append] at h1 h2
      have hnd2 : (rest ++ csk).Nodup := (List.nodup_cons.mp h1).2
      have hnotin : cell ∉ rest ++ csk := (List.nodup_cons.mp h1).1
      have hb2 : ∀ c ∈ rest ++ csk, c < (order ^ 2) ^ 2 :=
        fun c hc => h2 c (List.mem_cons_of_mem _ hc)
      have hcell : cell < (order ^ 2) ^ 2 := h2 cell (List.mem_cons_self cell _)
      have hmk := markedOf_admissible order f hinj honto (rest ++ csk) hnd2 hb2
      have hmkFull := markedOf_admissible order f hinj honto (cell :: (rest ++ csk)) h1
        (fun c hc => h2 c hc)
      have hvB : VGood (markedOf order f (rest ++ csk)) := hmk.1
      have hsound := mark_forced_sound hvB.1
      have hvbd2 : VGood (mark_forced (markedOf order f (rest ++ csk))) :=
        mark_forced_vgood hvB
      have hfB : Admissible (markedOf order f (rest ++ csk)) f := hmk.2.2.1
      have hfbd2 : Admissible (mark_forced (markedOf order f (rest ++ csk))) f :=
        (hsound.2.2 f).mpr hfB
      -- from "g admissible on the cell-popped board and g cell = f cell",
      -- recover the hypothesis of the outer invariant
      have hstep : ∀ g, Admissible (markedOf order f (rest ++ csk)) g →
          g cell = f cell → ∀ c, c < (order ^ 2) ^ 2 → g c = f c := by
        intro g hg hgc
        refine h3 g ?_
        show Admissible (markedOf order f (cell :: (rest ++ csk))) g
        rw [(hmkFull.2.2.2 g)]
        obtain ⟨hblank, honM⟩ := (hmk.2.2.2 g).mp hg
        refine ⟨hblank, ?_⟩
        intro c hc
        rcases List.mem_cons.mp hc with rfl | hc2
        · exact hgc
        · exact honM c hc2
      show (genFrom order f (cell :: rest) csk).Nodup ∧ _
      rw [genFrom]
      by_cases hded : ((mark_forced (markedOf order f (rest ++ csk))).known cell).isSome = true
      · rw [if_pos hded]
        obtain ⟨w, hw⟩ := Option.isSome_iff_exists.mp hded
        have hfw : f cell = w := hfbd2.1 cell w hw
        refine ih csk hnd2 hb2 ?_
        intro g hg
        have hg2 : Admissible (mark_forced (markedOf order f (rest ++ csk))) g :=
          (hsound.2.2 g).mpr hg
        exact hstep g hg (by rw [hg2.1 cell w hw, hfw])
      · rw [if_neg hded]
        have hknone : (mark_forced (markedOf order f (rest ++ csk))).known cell = none :=
          Option.not_isSome_iff_eq_none.mp (by simpa using hded)
        have hcell2 : cell < (mark_forced (markedOf order f (rest ++ csk))).ncells := by
          have ho : (mark_forced (markedOf order f (rest ++ csk))).order = order := by
            rw [hsound.2.1, hmk.2.1]
          show cell < ((mark_forced (markedOf order f (rest ++ csk))).order ^ 2) ^ 2
          rw [ho]
          exact hcell
        have hu0 : ((mark_forced (markedOf order f (rest ++ csk))).unknown cell).isSome = true := by
          rcases (hvbd2.1.1 cell).2.mpr hcell2 with h | h
          · rw [hknone] at h
            simp at h
          · exact h
        obtain ⟨s, hu⟩ := Option.isSome_iff_exists.mp hu0
        have hfs : f cell ∈ s := hfbd2.2.1 cell s hu
        by_cases hprop : isproperClue (mark_forced (markedOf order f (rest ++ csk)))
            cell (f cell) = true
        · rw [if_pos hprop]
          refine ih csk hnd2 hb2 ?_
          intro g hg
          have hg2 : Admissible (mark_forced (markedOf order f (rest ++ csk))) g :=
            (hsound.2.2 g).mpr hg
          have hgs : g cell ∈ s := hg2.2.1 cell s hu
          -- with the clue hint proper, no admissible assignment picks another value
          have hgc : g cell = f cell := by
            by_contra hne
            have hmem : g cell ∈ ascList
                (((mark_forced (markedOf order f (rest ++ csk))).cand cell).erase (f cell)) := by
              rw [mem_ascList, Board.cand, hu]
              exact Finset.mem_erase_of_ne_of_mem hne hgs
            have hempty := List.all_eq_true.mp hprop (g cell) hmem
            rw [List.isEmpty_iff] at hempty
            simp only [Board.marked] at hempty
            have hvm : VGood ((mark_forced (markedOf order f (rest ++ csk))).mark cell (g cell)) :=
              vgood_mark hvbd2 hu hgs
            have hgm : Admissible ((mark_forced (markedOf order f (rest ++ csk))).mark
                cell (g cell)) g :=
              (admissible_marked_split hcell2 hknone hu hgs g).mpr ⟨hg2, rfl⟩
            obtain ⟨b, hb, _⟩ :=
              (solveFrom_yields (solve_SolveFrom hvm.1.1) hvm).2.2 g hgm
            rw [hempty] at hb
            cases hb
          exact hstep g hg hgc
        · rw [if_neg hprop]
          have hperm2 : (rest ++ cell :: csk).Perm (cell :: (rest ++ csk)) :=
            List.perm_middle
          refine ih (cell :: csk) ?_ ?_ ?_
          · rw [hperm2.nodup_iff]
            exact h1
          · intro c hc
            exact h2 c (hperm2.mem_iff.mp hc)
          · intro g hg
            refine h3 g ?_
            show Admissible (markedOf order f (cell :: (rest ++ csk))) g
            rw [hmkFull.2.2.2 g]
            have hmkP := markedOf_admissible order f hinj honto (rest ++ cell :: csk)
              (by rw [hperm2.nodup_iff]; exact h1)
              (fun c hc => h2 c (hperm2.mem_iff.mp hc))
            obtain ⟨hblank, honM⟩ := (hmkP.2.2.2 g).mp hg
            exact ⟨hblank, fun c hc => honM c (hperm2.mem_iff.mpr hc)⟩

end Sudoku

namespace Sudoku

/-- C1: for every fully solved board `S` satisfying the class invariants (no
unknown cells — the invariants then make every division a permutation of
`[1, n]`) and every random seed (any removal order `rem`, any tie-breaking
inside the solver calls), `generate_from(S)` with `maxguesses = ∞` returns a
board `P` with `isproper(P)` true whose unique solution equals `S`. -/
theorem C1_generate_from_roundtrip (S : Board) (hv : VGood S) (hs : issolved S = true)
    (rem : List Nat) (hrem : rem.Perm (List.range S.ncells)) :
    isproper (markedOf S.order (assignOf S)
      (genFrom S.order (assignOf S) rem [])) = true ∧
    ∀ b ∈ solve (markedOf S.order (assignOf S) (genFrom S.order (assignOf S) rem [])),
      ∀ c, c < S.ncells → b.known c = S.known c := by
  have hadm := admissible_assignOf_solved hv hs
  have hinj := hadm.2.2.1
  have honto := hadm.2.2.2
  have hndrem : rem.Nodup := hrem.nodup_iff.mpr (List.nodup_range _)
  have hbrem : ∀ c ∈ rem, c < (S.order ^ 2) ^ 2 :=
    fun c hc => List.mem_range.mp (hrem.mem_iff.mp hc)
  have happ : (rem ++ ([] : List Nat)) = rem := List.append_nil rem
  have hmkrem := markedOf_admissible S.order (assignOf S) hinj honto rem hndrem hbrem
  obtain ⟨hndK, hbK, huniq⟩ := genFrom_unique S.order (assignOf S) hinj honto rem []
    (by rw [happ]; exact hndrem)
    (by rw [happ]; exact hbrem)
    (by
      rw [happ]
      intro g hg c hc
      obtain ⟨_, honM⟩ := (hmkrem.2.2.2 g).mp hg
      exact honM c (hrem.mem_iff.mpr (List.mem_range.mpr hc)))
  have hmkP := markedOf_admissible S.order (assignOf S) hinj honto
    (genFrom S.order (assignOf S) rem []) hndK hbK
  have hchar := solveFrom_yields (solve_SolveFrom hmkP.1.1.1) hmkP.1
  obtain ⟨b0, hb0, _⟩ := hchar.2.2 (assignOf S) hmkP.2.2.1
  have hncP : (markedOf S.order (assignOf S)
      (genFrom S.order (assignOf S) rem [])).ncells = S.ncells :=
    ncells_eq_of_order_eq hmkP.2.1
  have hyield : ∀ b ∈ solve (markedOf S.order (assignOf S)
      (genFrom S.order (assignOf S) rem [])),
      ∀ c, c < S.ncells → assignOf b c = assignOf S c := by
    intro b hb c hc
    exact huniq (assignOf b) ((hchar.1 b hb).2.2.2) c hc
  have hvecs : ∀ b ∈ solve (markedOf S.order (assignOf S)
      (genFrom S.order (assignOf S) rem [])),
      ∀ b2 ∈ solve (markedOf S.order (assignOf S)
        (genFrom S.order (assignOf S) rem [])), boardVec b = boardVec b2 := by
    intro b hb b2 hb2
    have hnb : b.ncells = S.ncells := by
      rw [ncells_eq_of_order_eq (hchar.1 b hb).2.2.1, hncP]
    have hnb2 : b2.ncells = S.ncells := by
      rw [ncells_eq_of_order_eq (hchar.1 b2 hb2).2.2.1, hncP]
    refine boardVec_eq_of_agree (by rw [hnb, hnb2]) ?_
    intro c hc
    rw [hnb] at hc
    rw [hyield b hb c hc, hyield b2 hb2 c hc]
  have hlen : (solve (markedOf S.order (assignOf S)
      (genFrom S.order (assignOf S) rem []))).length = 1 := by
    rcases hsol : solve (markedOf S.order (assignOf S)
        (genFrom S.order (assignOf S) rem [])) with _ | ⟨b1, rest2⟩
    · rw [hsol] at hb0
      cases hb0
    · rcases rest2 with _ | ⟨b2, rest3⟩
      · rfl
      · exfalso
        have hnd := hchar.2.1
        rw [hsol] at hnd
        have hb1 : b1 ∈ solve (markedOf S.order (assignOf S)
            (genFrom S.order (assignOf S) rem [])) := by
          rw [hsol]
          exact List.mem_cons_self _ _
        have hb2 : b2 ∈ solve (markedOf S.order (assignOf S)
            (genFrom S.order (assignOf S) rem [])) := by
          rw [hsol]
          exact List.mem_cons_of_mem _ (List.mem_cons_self _ _)
        have heq := hvecs b1 hb1 b2 hb2
        rw [List.map_cons, List.map_cons, List.nodup_cons] at hnd
        exact hnd.1 (by rw [heq]; exact List.mem_cons_self _ _)
  refine ⟨by rw [isproper, beq_iff_eq]; exact hlen, ?_⟩
  intro b hb c hc
  have hyb := hchar.1 b hb
  have hcb : c < b.ncells := by
    rw [ncells_eq_of_order_eq hyb.2.2.1, hncP]
    exact hc
  obtain ⟨v, hvk⟩ := Option.isSome_iff_exists.mp
    (solved_known_isSome hyb.2.1.1.1 hyb.1 hcb)
  obtain ⟨w, hwk⟩ := Option.isSome_iff_exists.mp (solved_known_isSome hv.1.1 hs hc)
  have h1 : assignOf b c = v := by rw [assignOf, hvk, Option.getD_some]
  have h2 : assignOf S c = w := by rw [assignOf, hwk, Option.getD_some]
  rw [hvk, hwk]
  rw [← h1, ← h2]
  rw [hyield b hb c hc]

/-- Witness for `C1_generate_from_roundtrip`: the order-1 solved board with
its single cell marked 1, removal order `[0]`. -/
theorem C1_generate_from_roundtrip_witness :
    VGood ((blank 1).mark 0 1) ∧ issolved ((blank 1).mark 0 1) = true ∧
      [0].Perm (List.range ((blank 1).mark 0 1).ncells) ∧
      isproper (markedOf ((blank 1).mark 0 1).order (assignOf ((blank 1).mark 0 1))
        (genFrom ((blank 1).mark 0 1).order (assignOf ((blank 1).mark 0 1)) [0] [])) = true :=
  ⟨vgood_mark (vgood_blank 1)
      (show (blank 1).unknown 0 = some (Finset.Icc 1 1) by decide) (by decide),
    by decide, by decide,
    (C1_generate_from_roundtrip ((blank 1).mark 0 1)
      (vgood_mark (vgood_blank 1)
        (show (blank 1).unknown 0 = some (Finset.Icc 1 1) by decide) (by decide))
      (by decide) [0] (by decide)).1⟩

end Sudoku
